import Mathlib

/-! mmgpio: memory-mapped GPIO register map and four-digit seven-segment multiplexer

A shallow embedding of `rasp.go` (type `RaspMMGPIO`) and of
`foursegdisp/foureightdisp.go` (type `FourEightSegs`), followed by the
properties proved about them.

Conventions of the embedding

* A Go `int` holding a pin index is an `Int`; Go's `/` and `%` on `int` truncate
  towards zero (`Int.tdiv`, `Int.tmod`).
* A word of the register window is the bit pattern of a 32-bit `int`, kept as a
  `Nat`; `rasp.go` states that the window view only works on 32-bit machines.
* Indexing a slice outside its bounds panics; an operation that can panic
  returns `Option` (register map) or `Except` (multiplexer, carrying the state
  reached when the panic happened).
* The multiplexer talks to its board through the interface `MMGPIO` only; the
  board is embedded as a recorder of the interface calls it receives.
-/

namespace mmgpio

/-! ## Register map (`rasp.go`) -/

/-- Width in bits of a Go `int` and `uint` on the 32-bit target. -/
def wordBits : Nat := 32

/-- Go conversion `uint(x)` of an `int` on the 32-bit target: the value modulo `2^32`. -/
def toUint (x : Int) : Nat := (x % (2 : Int) ^ wordBits).toNat

/-- Go expression `1 << u` of type `int` for an unsigned shift count `u`, as a
32-bit pattern: bit `u` when `u < 32`, and `0` once the one is shifted out. -/
def shl1 (u : Nat) : Nat := if u < wordBits then 2 ^ u else 0

/-- RaspMMGPIO: the memory mapped GPIOs. The OS file handle `mmfile` carries no
data of the model; `gpios` is the mapped window viewed as 32-bit words. -/
structure RaspMMGPIO where
  MMFilename : String
  GPIOOffset : Int
  MMPageSize : Int
  gpios : List Nat
deriving DecidableEq, Repr

/-- Board families known to the constructor. -/
inductive BoardType where
  | RASP_ZERO
  | RASP_2_3
deriving DecidableEq, Repr

/-- NewRaspMMGPIO: the register map for a board family, not yet mapped. -/
def NewRaspMMGPIO (rasp : BoardType) : RaspMMGPIO :=
  if rasp = BoardType.RASP_2_3 then
    { MMFilename := "/dev/mem", GPIOOffset := 0x3f200000, MMPageSize := 4 * 1024, gpios := [] }
  else
    { MMFilename := "/dev/mem", GPIOOffset := 0x20200000, MMPageSize := 4 * 1024, gpios := [] }

/-- SetFilename overwrites the memory file name. -/
def RaspMMGPIO.SetFilename (r : RaspMMGPIO) (name : String) : RaspMMGPIO :=
  { r with MMFilename := name }

/-- Slice store `r.gpios[i] = v` with a Go `int` index: panics (`none`) when the
index is negative or not below the length. -/
def RaspMMGPIO.store (r : RaspMMGPIO) (i : Int) (v : Nat) : Option RaspMMGPIO :=
  if 0 ≤ i ∧ i < r.gpios.length then some { r with gpios := r.gpios.set i.toNat v } else none

/-- Slice load `r.gpios[i]` with a Go `int` index. -/
def RaspMMGPIO.load (r : RaspMMGPIO) (i : Int) : Option Nat :=
  if 0 ≤ i ∧ i < r.gpios.length then r.gpios[i.toNat]? else none

/-- OutGpio: `r.gpios[(g)/10] |= 1 << uint((g%10)*3)`. -/
def RaspMMGPIO.OutGpio (r : RaspMMGPIO) (g : Int) : Option RaspMMGPIO :=
  match r.load (Int.tdiv g 10) with
  | none => none
  | some w => r.store (Int.tdiv g 10) (w ||| shl1 (toUint (Int.tmod g 10 * 3)))

/-- SetGpio: `r.gpios[7] = 1 << uint(g)`. -/
def RaspMMGPIO.SetGpio (r : RaspMMGPIO) (g : Int) : Option RaspMMGPIO :=
  r.store 7 (shl1 (toUint g))

/-- ClrGpio: `r.gpios[10] = 1 << uint(g)`. -/
def RaspMMGPIO.ClrGpio (r : RaspMMGPIO) (g : Int) : Option RaspMMGPIO :=
  r.store 10 (shl1 (toUint g))

/-- Word `w` of the window (0 outside the window). -/
def RaspMMGPIO.word (r : RaspMMGPIO) (w : Nat) : Nat := r.gpios.getD w 0

/-- The three mode bits of pin `h`: bits `3*(h%10)` to `3*(h%10)+2` of word `h/10`,
read as a number in `0..7` (`1` is the encoding `001` of "output"). -/
def RaspMMGPIO.modeBits (r : RaspMMGPIO) (h : Int) : Nat :=
  (r.word (Int.tdiv h 10).toNat >>> (3 * Int.tmod h 10).toNat) % 8

/-! ## Board interface (`mmgpio.go`) and observable events -/

/-- Go `error`: `none` is `nil`. -/
abbrev GoError := Option String

/-- Observable events of the multiplexer, in program order: the calls it makes
through interface `MMGPIO`, the holds of `time.Sleep` (duration in nanoseconds)
and the send on the completion channel. -/
inductive Event where
  | Init
  | OutGpio (gpio : Int)
  | SetGpio (gpio : Int)
  | ClrGpio (gpio : Int)
  | Sleep (ns : Int)
  | Done
deriving DecidableEq, Repr

/-- A board behind interface `MMGPIO` as the multiplexer sees it: the result its
`Init` returns. Its pin operations return nothing. -/
structure Board where
  initResult : GoError
deriving DecidableEq, Repr

/-! ## Display multiplexer (`foursegdisp/foureightdisp.go`) -/

/-- Table segdisp maps a decimal digit to its seven segment flags. -/
def segdisp : List (List Int) :=
  [ [1, 1, 1, 1, 1, 1, 0],
    [0, 1, 1, 0, 0, 0, 0],
    [1, 1, 0, 1, 1, 0, 1],
    [1, 1, 1, 1, 0, 0, 1],
    [0, 1, 1, 0, 0, 1, 1],
    [1, 0, 1, 1, 0, 1, 1],
    [1, 0, 1, 1, 1, 1, 1],
    [1, 1, 1, 0, 0, 0, 0],
    [1, 1, 1, 1, 1, 1, 1],
    [1, 1, 1, 0, 0, 1, 1] ]

/-- FourEightSegs: the multiplexer. `nums`, `dots` and `stop` are `uint32` cells,
`segs`, `digs` and `dot` hold pin indices. `trace` is not a field of the Go struct:
it records the events the value has produced so far. -/
structure FourEightSegs where
  board : Board
  nums : Fin 4 → Nat
  dots : Fin 4 → Nat
  segs : Fin 7 → Int
  digs : Fin 4 → Int
  dot : Int
  stop : Nat
  trace : List Event

/-- NewFourEightSegs: blank constructor, every field but the board is zero. -/
def NewFourEightSegs (board : Board) : FourEightSegs :=
  { board := board, nums := fun _ => 0, dots := fun _ => 0, segs := fun _ => 0,
    digs := fun _ => 0, dot := 0, stop := 0, trace := [] }

/-- Append one event to the trace. -/
def FourEightSegs.emit (m : FourEightSegs) (e : Event) : FourEightSegs :=
  { m with trace := m.trace ++ [e] }

/-- Append a sequence of events to the trace. -/
def FourEightSegs.emits (m : FourEightSegs) (es : List Event) : FourEightSegs :=
  { m with trace := m.trace ++ es }

/-- Promoted method `m.OutGpio(g)` of the embedded board. -/
def FourEightSegs.OutGpio (m : FourEightSegs) (g : Int) : FourEightSegs := m.emit (Event.OutGpio g)

/-- Promoted method `m.SetGpio(g)` of the embedded board. -/
def FourEightSegs.SetGpio (m : FourEightSegs) (g : Int) : FourEightSegs := m.emit (Event.SetGpio g)

/-- Promoted method `m.ClrGpio(g)` of the embedded board. -/
def FourEightSegs.ClrGpio (m : FourEightSegs) (g : Int) : FourEightSegs := m.emit (Event.ClrGpio g)

/-- Array read `m.segs[i]` with a run-time index: panics (`none`) from index 7 on. -/
def FourEightSegs.segAt (m : FourEightSegs) (i : Nat) : Option Int :=
  if h : i < 7 then some (m.segs ⟨i, h⟩) else none

/-- Init: initialise the board, then store the twelve pins and make each an output. -/
def FourEightSegs.Init (m : FourEightSegs) (segs : Fin 7 → Int) (digs : Fin 4 → Int) (dot : Int) :
    GoError × FourEightSegs :=
  let m0 := m.emit Event.Init
  match m0.board.initResult with
  | some err => (some err, m0)
  | none =>
    let m1 := (List.finRange 7).foldl
      (fun s i => ({ s with segs := Function.update s.segs i (segs i) }).OutGpio (segs i)) m0
    let m2 := (List.finRange 4).foldl
      (fun s i => ({ s with digs := Function.update s.digs i (digs i) }).OutGpio (digs i)) m1
    let m3 := ({ m2 with dot := dot }).OutGpio dot
    (none, m3)

/-- SetNumsDots: swap the four digit values and the four dot flags, slot by slot. -/
def FourEightSegs.SetNumsDots (m : FourEightSegs) (nums dots : Fin 4 → Nat) : FourEightSegs :=
  (List.finRange 4).foldl
    (fun s i =>
      let s1 := { s with nums := Function.update s.nums i (nums i) }
      { s1 with dots := Function.update s1.dots i (dots i) }) m

/-- SetDigsSegs: drive the segment pins for digit `i`; the table lookup and the
array read panic on a bad index, giving `Except.error` with the state reached. -/
def FourEightSegs.SetDigsSegs (m : FourEightSegs) (i : Int) : Except FourEightSegs FourEightSegs :=
  match (if 0 ≤ i then segdisp[i.toNat]? else none) with
  | none => Except.error m
  | some disp =>
    (List.range disp.length).foldlM
      (fun s k =>
        match s.segAt k with
        | none => Except.error s
        | some pin => if disp.getD k 0 = 1 then Except.ok (s.SetGpio pin) else Except.ok (s.ClrGpio pin))
      m

/-- AllDigsOn: clear (enable) every digit pin. -/
def FourEightSegs.AllDigsOn (m : FourEightSegs) : FourEightSegs :=
  (List.finRange 4).foldl (fun s i => s.ClrGpio (m.digs i)) m

/-- AllDigsOff: set (disable) every digit pin. -/
def FourEightSegs.AllDigsOff (m : FourEightSegs) : FourEightSegs :=
  (List.finRange 4).foldl (fun s i => s.SetGpio (m.digs i)) m

/-- Stop: `atomic.AddUint32(&m.stop, 1)`, an addition on a `uint32`. -/
def FourEightSegs.Stop (m : FourEightSegs) : FourEightSegs :=
  { m with stop := (m.stop + 1) % 2 ^ 32 }

/-- The stop test of the render loop on a loaded value: `atomic.LoadUint32(&m.stop) > 0`. -/
def stopTest (v : Nat) : Bool := decide (0 < v)

/-- Values returned by the atomic loads of the render loop. Another thread may
swap the cells at any time, so the loop is given what each load returns:
`stop p` at the check that opens pass `p` (passes count from 0), `nums p j` and
`dots p j` in the step for position `j` of pass `p`. -/
structure Loads where
  stop : Nat → Nat
  nums : Nat → Fin 4 → Nat
  dots : Nat → Fin 4 → Nat

/-- The loads seen when no other thread writes while the loop runs. -/
def Loads.quiet (m : FourEightSegs) : Loads :=
  { stop := fun _ => m.stop, nums := fun _ => m.nums, dots := fun _ => m.dots }

/-- The loads seen when the content is that of `m` throughout and another thread
calls `Stop` during pass `k - 1` (before the loop starts when `k = 0`). -/
def Loads.stopAfter (m : FourEightSegs) (k : Nat) : Loads :=
  { stop := fun p => if p < k then m.stop else (m.Stop).stop,
    nums := fun _ => m.nums, dots := fun _ => m.dots }

/-- One digit step: the body of `for j = 0; j < 4; j++` in `run`, for position `j`
of pass `p`, holding the digit for `ms` microseconds. -/
def digitStep (ld : Loads) (ms : Int) (p : Nat) (m : FourEightSegs) (j : Fin 4) :
    Except FourEightSegs FourEightSegs :=
  let m1 := if 0 < j.val then m.SetGpio (m.digs ⟨j.val - 1, by omega⟩) else m.SetGpio (m.digs 3)
  match segdisp[ld.nums p j]? with
  | none => Except.error m1
  | some disp =>
    match (List.range disp.length).foldlM
      (fun s i =>
        match s.segAt i with
        | none => Except.error s
        | some pin => if disp.getD i 0 = 1 then Except.ok (s.SetGpio pin) else Except.ok (s.ClrGpio pin))
      m1 with
    | Except.error s => Except.error s
    | Except.ok m2 =>
      let m3 := if 0 < ld.dots p j then m2.SetGpio m2.dot else m2.ClrGpio m2.dot
      let m4 := m3.ClrGpio (m3.digs j)
      Except.ok (m4.emit (Event.Sleep (ms * 1000)))

/-- How a run of the loop ended: it sent the completion signal and left the loop,
it panicked, or the model stopped following it (out of fuel) while it was running. -/
inductive Exit where
  | done
  | panicked
  | running
deriving DecidableEq, Repr

/-- What `run` leaves behind. -/
structure RunResult where
  exit : Exit
  m : FourEightSegs

/-- The `for` loop of `run` from pass `p` on, followed for at most `fuel` stop checks. -/
def loop (ld : Loads) (ms : Int) : Nat → Nat → FourEightSegs → RunResult
  | 0, _, m => { exit := Exit.running, m := m }
  | fuel + 1, p, m =>
    if stopTest (ld.stop p) then { exit := Exit.done, m := m.emit Event.Done }
    else
      match (List.finRange 4).foldlM (digitStep ld ms p) m with
      | Except.error s => { exit := Exit.panicked, m := s }
      | Except.ok s => loop ld ms fuel (p + 1) s

/-- The body of the goroutine, `run(ms, done)`: blank the digits, then loop. -/
def FourEightSegs.run (m : FourEightSegs) (ld : Loads) (ms : Int) (fuel : Nat) : RunResult :=
  loop ld ms fuel 0 m.AllDigsOff

/-- Events that are register operations (`OutGpio`, `SetGpio`, `ClrGpio`). -/
def Event.isRegOp : Event → Bool
  | Event.OutGpio _ => true
  | Event.SetGpio _ => true
  | Event.ClrGpio _ => true
  | _ => false

/-- The events produced between state `m` and a later state `m'`. -/
def issued (m m' : FourEightSegs) : List Event := m'.trace.drop m.trace.length

/-! ## Pin levels -/

/-- Level of every pin after one event: `SetGpio p` drives `p` high (`true`),
`ClrGpio p` drives it low, nothing else moves a pin. -/
def Event.drive (e : Event) (lv : Int → Bool) : Int → Bool :=
  match e with
  | Event.SetGpio p => Function.update lv p true
  | Event.ClrGpio p => Function.update lv p false
  | _ => lv

/-- Levels after a sequence of events, from the levels `lv` before it. -/
def levels (es : List Event) (lv : Int → Bool) : Int → Bool :=
  es.foldl (fun l e => e.drive l) lv

/-- The twelve pins of an assignment: segments, digits, dot. -/
def FourEightSegs.pins (m : FourEightSegs) : List Int :=
  List.ofFn m.segs ++ List.ofFn m.digs ++ [m.dot]

/-- At most one digit pin is low (enabled) at levels `lv`. -/
def AtMostOneLow (m : FourEightSegs) (lv : Int → Bool) : Prop :=
  ∀ i j : Fin 4, lv (m.digs i) = false → lv (m.digs j) = false → i = j

/-! ## Expected event sequences, written from the specification -/

/-- Position lit before position `j` in the cyclic order: `(j + 3) mod 4`. -/
def prevPos (j : Fin 4) : Fin 4 := ⟨(j.val + 3) % 4, Nat.mod_lt _ (by decide)⟩

/-- Write for segment `i` showing digit `v`: set when the flag is 1, clear otherwise. -/
def segWrite (m : FourEightSegs) (v : Nat) (i : Fin 7) : Event :=
  if (segdisp.getD v []).getD i.val 0 = 1 then Event.SetGpio (m.segs i) else Event.ClrGpio (m.segs i)

/-- Write for the dot: set when the flag is positive, clear otherwise. -/
def dotWrite (m : FourEightSegs) (d : Nat) : Event :=
  if 0 < d then Event.SetGpio m.dot else Event.ClrGpio m.dot

/-- Register operations of the digit step for position `j` showing digit `v` with dot flag `d`. -/
def stepOps (m : FourEightSegs) (v d : Nat) (j : Fin 4) : List Event :=
  [Event.SetGpio (m.digs (prevPos j))] ++ (List.finRange 7).map (segWrite m v)
    ++ [dotWrite m d] ++ [Event.ClrGpio (m.digs j)]

/-- Register operations of pass `p`: the steps for positions 0, 1, 2, 3. -/
def passOps (m : FourEightSegs) (ld : Loads) (p : Nat) : List Event :=
  stepOps m (ld.nums p 0) (ld.dots p 0) 0 ++ stepOps m (ld.nums p 1) (ld.dots p 1) 1
    ++ stepOps m (ld.nums p 2) (ld.dots p 2) 2 ++ stepOps m (ld.nums p 3) (ld.dots p 3) 3

/-- Events of a digit step: its register operations, then the hold of `ms` microseconds. -/
def stepEvents (m : FourEightSegs) (ms : Int) (v d : Nat) (j : Fin 4) : List Event :=
  stepOps m v d j ++ [Event.Sleep (ms * 1000)]

/-- Events of pass `p`: the steps for positions 0, 1, 2, 3, each with its hold. -/
def passEvents (m : FourEightSegs) (ld : Loads) (ms : Int) (p : Nat) : List Event :=
  stepEvents m ms (ld.nums p 0) (ld.dots p 0) 0 ++ stepEvents m ms (ld.nums p 1) (ld.dots p 1) 1
    ++ stepEvents m ms (ld.nums p 2) (ld.dots p 2) 2
    ++ stepEvents m ms (ld.nums p 3) (ld.dots p 3) 3

/-- Register operations among a sequence of events. -/
def regOps (es : List Event) : List Event := es.filter Event.isRegOp

/-- Register operations of `AllDigsOff`. -/
def offOps (m : FourEightSegs) : List Event :=
  [Event.SetGpio (m.digs 0), Event.SetGpio (m.digs 1), Event.SetGpio (m.digs 2),
    Event.SetGpio (m.digs 3)]

/-! ## Example values -/

/-- A window for examples: word 0 holds the modes of pins 0..9, here pin 0 in an
alternate function (010), pin 1 an input (000), pin 2 an output (001), pin 3 in 100. -/
def exampleWindow : RaspMMGPIO :=
  { MMFilename := "/dev/mem", GPIOOffset := 0x20200000, MMPageSize := 4 * 1024,
    gpios := [0b100001000010, 0, 0, 0, 0, 0, 0, 5, 0, 0, 9, 0] }

/-- A board whose `Init` succeeds. -/
def goodBoard : Board := { initResult := none }

/-- A board whose `Init` fails. -/
def badBoard : Board := { initResult := some "open /dev/mem: permission denied" }

/-- The multiplexer of `cmd/four8disp/main.go` after `Init` and `SetNumsDots`,
with an empty trace. -/
def demo : FourEightSegs :=
  { board := goodBoard, nums := ![1, 2, 3, 4], dots := ![0, 1, 0, 0],
    segs := ![9, 13, 17, 3, 2, 11, 27], digs := ![10, 5, 6, 22], dot := 4, stop := 0,
    trace := [] }

/-- The state a fresh multiplexer is in after `2^32 - 1` calls of `Stop`
(see `Stop_iterate_fresh`): the counter holds the largest `uint32`. -/
def lastStop : FourEightSegs := { NewFourEightSegs goodBoard with stop := 4294967295 }

/-! ## Predicates on pin levels -/

/-- Every digit pin other than that of position `j` is high at levels `lv`. -/
def HighExcept (m : FourEightSegs) (j : Fin 4) (lv : Int → Bool) : Prop :=
  ∀ i : Fin 4, i ≠ j → lv (m.digs i) = true

/-- Every digit pin is high at levels `lv`. -/
def AllHigh (m : FourEightSegs) (lv : Int → Bool) : Prop :=
  ∀ i : Fin 4, lv (m.digs i) = true

/-- From levels `lv`, at most one digit pin is low at every point of the events `es`. -/
def Safe (m : FourEightSegs) (es : List Event) (lv : Int → Bool) : Prop :=
  ∀ n : Nat, AtMostOneLow m (levels (es.take n) lv)

/-- Event `e` is not a write on a digit pin. -/
def Event.offDigits (m : FourEightSegs) (e : Event) : Prop :=
  ∀ i : Fin 4, e ≠ Event.SetGpio (m.digs i) ∧ e ≠ Event.ClrGpio (m.digs i)

/-! ## Further definitions: `Run`, the window view, holds and pin targets -/

/-- Run: start `run(ms, done)` as a goroutine and return the channel `done`. The
model follows the goroutine; the send on `done` is the event `Event.Done`. -/
def FourEightSegs.Run (m : FourEightSegs) (ld : Loads) (ms : Int) (fuel : Nat) : RunResult :=
  m.run ld ms fuel

/-- The 32-bit words held by a byte sequence, four bytes a word, low byte first
(the byte order of the target); bytes beyond the last whole word are left out. -/
def wordsOf : List Nat → List Nat
  | b0 :: b1 :: b2 :: b3 :: rest => (b0 + 256 * b1 + 65536 * b2 + 16777216 * b3) :: wordsOf rest
  | _ => []

/-- Function bytesToInts views a byte slice as a slice of `len(b) / 4` words without
copying; taking the address `&b[0]` panics (`none`) on an empty slice. -/
def bytesToInts (b : List Nat) : Option (List Nat) :=
  if b = [] then none else some (wordsOf b)

/-- Durations, in nanoseconds, of the holds among a sequence of events. -/
def holds (es : List Event) : List Int :=
  es.filterMap (fun e => match e with
    | Event.Sleep ns => some ns
    | _ => none)

/-- The pin a register operation addresses. -/
def Event.target : Event → Option Int
  | Event.OutGpio p => some p
  | Event.SetGpio p => some p
  | Event.ClrGpio p => some p
  | _ => none

/-- Exactly one digit pin is low (enabled) at levels `lv`. -/
def ExactlyOneLow (m : FourEightSegs) (lv : Int → Bool) : Prop :=
  ∃ j : Fin 4, lv (m.digs j) = false ∧ ∀ i : Fin 4, i ≠ j → lv (m.digs i) = true

/-- From levels `lv`, exactly one digit pin is low whenever a hold of `es` starts. -/
def HoldsLit (m : FourEightSegs) (es : List Event) (lv : Int → Bool) : Prop :=
  ∀ (n : Nat) (d : Int), es[n]? = some (Event.Sleep d) → ExactlyOneLow m (levels (es.take n) lv)

/-- The demo multiplexer with the dot wired to pin 9, which is also segment pin 0. -/
def clash : FourEightSegs := { demo with dot := 9 }

/-- From levels `lv`, every digit pin is high at each point of `es` whose next event
is a register operation other than `SetGpio` on a digit pin, that is, a segment
write, the dot write or the `ClrGpio` that enables a digit. -/
def BlankUntilMake (m : FourEightSegs) (es : List Event) (lv : Int → Bool) : Prop :=
  ∀ (n : Nat) (e : Event), es[n]? = some e → Event.isRegOp e = true →
    (∀ i : Fin 4, e ≠ Event.SetGpio (m.digs i)) → AllHigh m (levels (es.take n) lv)

/-! ## Theorems -/

/-! ### Register map: `OutGpio` -/

theorem toUint_of_nonneg (x : Int) (h0 : 0 ≤ x) (h1 : x < 4294967296) : toUint x = x.toNat := by
  unfold toUint wordBits
  norm_num
  omega

theorem toUint_of_neg (x : Int) (h0 : x < 0) (h1 : -4294967296 ≤ x) :
    toUint x = (x + 4294967296).toNat := by
  unfold toUint wordBits
  norm_num
  omega

/-- The mask `1 << uint(t*3)` for a remainder `t` of a division by ten. -/
theorem shl1_slot (t : Int) (hlo : -9 ≤ t) (hhi : t ≤ 9) :
    shl1 (toUint (t * 3)) = if 0 ≤ t then 2 ^ (3 * t).toNat else 0 := by
  by_cases h : 0 ≤ t
  · rw [toUint_of_nonneg _ (by omega) (by omega), if_pos h]
    unfold shl1 wordBits
    rw [if_pos (by omega)]
    congr 1
    omega
  · rw [toUint_of_neg _ (by omega) (by omega), if_neg h]
    unfold shl1 wordBits
    rw [if_neg (by omega)]

theorem shl1_pin (g : Int) (hlo : 0 ≤ g) (hhi : g < 32) : shl1 (toUint g) = 2 ^ g.toNat := by
  rw [toUint_of_nonneg _ hlo (by omega)]
  unfold shl1 wordBits
  rw [if_pos (by omega)]

theorem tmod10_bounds (g : Int) : -9 ≤ Int.tmod g 10 ∧ Int.tmod g 10 ≤ 9 := by
  cases g with
  | ofNat n =>
    have : Int.tmod (Int.ofNat n) 10 = ((n % 10 : Nat) : Int) := rfl
    omega
  | negSucc n =>
    have : Int.tmod (Int.negSucc n) 10 = -(((n + 1) % 10 : Nat) : Int) := rfl
    omega

theorem tmod10_nonneg (g : Int) (h : 0 ≤ g) : 0 ≤ Int.tmod g 10 := Int.tmod_nonneg 10 h

/-- Two pins with the same quotient and remainder by ten are the same pin. -/
theorem pin_eq_of_tdiv_tmod (g h : Int) (hd : Int.tdiv h 10 = Int.tdiv g 10)
    (hm : Int.tmod h 10 = Int.tmod g 10) : h = g := by
  have h1 := Int.tdiv_add_tmod h 10
  have h2 := Int.tdiv_add_tmod g 10
  omega

/-- What `OutGpio` stores when the control word of `g` lies in the window. -/
theorem OutGpio_eq (r : RaspMMGPIO) (g : Int)
    (hlo : 0 ≤ Int.tdiv g 10) (hhi : Int.tdiv g 10 < r.gpios.length) :
    r.OutGpio g = some { r with
      gpios := r.gpios.set (Int.tdiv g 10).toNat
        (r.word (Int.tdiv g 10).toNat |||
          (if 0 ≤ Int.tmod g 10 then 2 ^ (3 * Int.tmod g 10).toNat else 0)) } := by
  have hn : (Int.tdiv g 10).toNat < r.gpios.length := by omega
  have hb := tmod10_bounds g
  unfold RaspMMGPIO.OutGpio RaspMMGPIO.load RaspMMGPIO.store RaspMMGPIO.word
  rw [if_pos ⟨hlo, hhi⟩, List.getElem?_eq_getElem hn]
  simp only [if_pos (And.intro hlo hhi)]
  rw [shl1_slot _ hb.1 hb.2, List.getD_eq_getElem _ _ hn]

theorem word_set_ne (l : List Nat) (n w v : Nat) (h : w ≠ n) :
    (l.set n v).getD w 0 = l.getD w 0 := by
  simp [List.getD_eq_getElem?_getD, List.getElem?_set_ne (Ne.symm h)]

theorem word_set_eq (l : List Nat) (n v : Nat) (h : n < l.length) :
    (l.set n v).getD n 0 = v := by
  simp [List.getD_eq_getElem?_getD, List.getElem?_set_self, h]

theorem testBit_slot (x s k : Nat) :
    ((x >>> s) % 8).testBit k = (decide (k < 3) && x.testBit (s + k)) := by
  have : (8 : Nat) = 2 ^ 3 := by norm_num
  rw [this, Nat.testBit_mod_two_pow, Nat.testBit_shiftRight]

/-- C2. Configure preserves siblings: when the control word `g/10` of pin `g` lies
in the window, `OutGpio g` returns, keeps the size of the window, leaves every
other word as it was, leaves every bit of word `g/10` other than bit `3*(g%10)`
as it was, and so leaves the three mode bits of every other pin `h` of the same
word as they were. -/
theorem OutGpio_preserves_siblings (r : RaspMMGPIO) (g : Int)
    (hlo : 0 ≤ Int.tdiv g 10) (hhi : Int.tdiv g 10 < r.gpios.length) :
    ∃ r', r.OutGpio g = some r' ∧ r'.gpios.length = r.gpios.length ∧
      (∀ w : Nat, (w : Int) ≠ Int.tdiv g 10 → r'.word w = r.word w) ∧
      (∀ b : Nat, (b : Int) ≠ 3 * Int.tmod g 10 →
        (r'.word (Int.tdiv g 10).toNat).testBit b = (r.word (Int.tdiv g 10).toNat).testBit b) ∧
      (∀ h : Int, 0 ≤ h → h ≠ g → Int.tdiv h 10 = Int.tdiv g 10 →
        r'.modeBits h = r.modeBits h) := by
  have hn : (Int.tdiv g 10).toNat < r.gpios.length := by omega
  have hbit : ∀ b : Nat, (b : Int) ≠ 3 * Int.tmod g 10 →
      (r.word (Int.tdiv g 10).toNat |||
        (if 0 ≤ Int.tmod g 10 then 2 ^ (3 * Int.tmod g 10).toNat else 0)).testBit b
        = (r.word (Int.tdiv g 10).toNat).testBit b := by
    intro b hb
    rw [Nat.testBit_lor]
    by_cases ht : 0 ≤ Int.tmod g 10
    · rw [if_pos ht, Nat.testBit_two_pow]
      have : (3 * Int.tmod g 10).toNat ≠ b := by omega
      simp [this]
    · rw [if_neg ht]
      simp
  refine ⟨_, OutGpio_eq r g hlo hhi, by simp, ?_, ?_, ?_⟩
  · intro w hw
    have : w ≠ (Int.tdiv g 10).toNat := by omega
    simp only [ RaspMMGPIO.word]
    exact word_set_ne _ _ _ _ this
  · intro b hb
    simp only [ RaspMMGPIO.word]
    rw [word_set_eq _ _ _ hn]
    exact hbit b hb
  · intro h hh hne hd
    simp only [ RaspMMGPIO.modeBits, RaspMMGPIO.word, hd]
    rw [word_set_eq _ _ _ hn]
    apply Nat.eq_of_testBit_eq
    intro k
    rw [testBit_slot, testBit_slot]
    by_cases hk : k < 3
    · have h0 := tmod10_nonneg h hh
      have hm : Int.tmod h 10 ≠ Int.tmod g 10 := fun e => hne (pin_eq_of_tdiv_tmod g h hd e)
      have := hbit ((3 * Int.tmod h 10).toNat + k) (by omega)
      simp only [ RaspMMGPIO.word] at this
      rw [this]
    · simp [hk]

/-- Witness of C2 on the example window and pin 2. -/
theorem OutGpio_preserves_siblings_witness :
    (0 : Int) ≤ Int.tdiv 2 10 ∧ Int.tdiv 2 10 < (exampleWindow.gpios.length : Int) ∧
    ∃ r', exampleWindow.OutGpio 2 = some r' ∧ r'.gpios.length = exampleWindow.gpios.length ∧
      (∀ w : Nat, (w : Int) ≠ Int.tdiv 2 10 → r'.word w = exampleWindow.word w) ∧
      (∀ b : Nat, (b : Int) ≠ 3 * Int.tmod 2 10 →
        (r'.word (Int.tdiv 2 10).toNat).testBit b
          = (exampleWindow.word (Int.tdiv 2 10).toNat).testBit b) ∧
      (∀ h : Int, 0 ≤ h → h ≠ 2 → Int.tdiv h 10 = Int.tdiv 2 10 →
        r'.modeBits h = exampleWindow.modeBits h) :=
  ⟨by decide, by decide, OutGpio_preserves_siblings exampleWindow 2 (by decide) (by decide)⟩

/-- C3, as stated, fails: pin 0 of the example window is in mode 010; `OutGpio 0`
leaves its mode bits at 011, which is not the output encoding 001. -/
theorem OutGpio_mode_not_output :
    exampleWindow.modeBits 0 = 2 ∧
    (exampleWindow.OutGpio 0).map (fun r => r.modeBits 0) = some 3 := by
  decide

/-- C3, amended. For a pin `g ≥ 0` whose control word lies in the window,
`OutGpio g` returns and ORs 001 into the three mode bits of `g`: the low mode bit
is 1 afterwards and the two upper mode bits keep their value, so the mode is the
output encoding 001 whenever it was 000 or 001 before. -/
theorem OutGpio_ors_output_bit (r : RaspMMGPIO) (g : Int)
    (hg : 0 ≤ g) (hhi : Int.tdiv g 10 < r.gpios.length) :
    ∃ r', r.OutGpio g = some r' ∧ r'.modeBits g = r.modeBits g ||| 1 ∧
      (r.modeBits g ≤ 1 → r'.modeBits g = 1) := by
  have hlo : 0 ≤ Int.tdiv g 10 := Int.tdiv_nonneg hg (by decide)
  have hn : (Int.tdiv g 10).toNat < r.gpios.length := by omega
  have ht := tmod10_nonneg g hg
  have key : ({ r with
      gpios := r.gpios.set (Int.tdiv g 10).toNat
        (r.word (Int.tdiv g 10).toNat |||
          (if 0 ≤ Int.tmod g 10 then 2 ^ (3 * Int.tmod g 10).toNat else 0)) } :
        RaspMMGPIO).modeBits g = r.modeBits g ||| 1 := by
    simp only [ RaspMMGPIO.modeBits, RaspMMGPIO.word]
    rw [word_set_eq _ _ _ hn, if_pos ht]
    apply Nat.eq_of_testBit_eq
    intro k
    rw [testBit_slot, Nat.testBit_lor, Nat.testBit_lor, testBit_slot, Nat.testBit_two_pow]
    have : (1 : Nat) = 2 ^ 0 := rfl
    rw [this, Nat.testBit_two_pow]
    by_cases hk : k = 0
    · subst hk
      simp
    · have h1 : (3 * Int.tmod g 10).toNat ≠ (3 * Int.tmod g 10).toNat + k := by omega
      have h2 : 0 ≠ k := fun e => hk e.symm
      simp [h1, h2]
  refine ⟨_, OutGpio_eq r g hlo hhi, key, ?_⟩
  intro hle
  rw [key]
  have : r.modeBits g = 0 ∨ r.modeBits g = 1 := by omega
  rcases this with h | h <;> rw [h] <;> rfl

/-- Witness of amended C3 on the example window and pin 1 (an input before). -/
theorem OutGpio_ors_output_bit_witness :
    (0 : Int) ≤ 1 ∧ Int.tdiv 1 10 < (exampleWindow.gpios.length : Int) ∧
    ∃ r', exampleWindow.OutGpio 1 = some r' ∧
      r'.modeBits 1 = exampleWindow.modeBits 1 ||| 1 ∧
      (exampleWindow.modeBits 1 ≤ 1 → r'.modeBits 1 = 1) :=
  ⟨by decide, by decide, OutGpio_ors_output_bit exampleWindow 1 (by decide) (by decide)⟩

/-! ### Register map: `SetGpio`, `ClrGpio`, and the encoding table -/

/-- A store into word `i` of a window that has a word `i`. -/
theorem store_eq (r : RaspMMGPIO) (i v : Nat) (h : i < r.gpios.length) :
    r.store (i : Int) v = some { r with gpios := r.gpios.set i v } := by
  unfold RaspMMGPIO.store
  rw [if_pos ⟨by omega, by omega⟩]
  simp

/-- A store into word `i` does not depend on what word `i` held. -/
theorem store_forgets (r : RaspMMGPIO) (i v u : Nat) :
    ({ r with gpios := r.gpios.set i u } : RaspMMGPIO).store (i : Int) v = r.store (i : Int) v := by
  unfold RaspMMGPIO.store
  simp only [List.length_set, Int.toNat_ofNat, List.set_set]

/-- C4. Set and clear never read-modify-write: in a window of at least 11 words and
for `0 ≤ g < 32`, `SetGpio g` returns a window of the same size whose word 7 has
bit `g` as its only set bit and whose other words are as before, and the result
is the same when word 7 held any other value `u` before; `ClrGpio g` does the
same with word 10. -/
theorem SetGpio_ClrGpio_plain_store (r : RaspMMGPIO) (g : Int)
    (hlen : 11 ≤ r.gpios.length) (h0 : 0 ≤ g) (h1 : g < 32) :
    (∃ r', r.SetGpio g = some r' ∧ r'.gpios.length = r.gpios.length ∧
      (∀ b : Nat, (r'.word 7).testBit b = decide (b = g.toNat)) ∧
      (∀ w : Nat, w ≠ 7 → r'.word w = r.word w) ∧
      (∀ u : Nat, ({ r with gpios := r.gpios.set 7 u } : RaspMMGPIO).SetGpio g = some r')) ∧
    (∃ r', r.ClrGpio g = some r' ∧ r'.gpios.length = r.gpios.length ∧
      (∀ b : Nat, (r'.word 10).testBit b = decide (b = g.toNat)) ∧
      (∀ w : Nat, w ≠ 10 → r'.word w = r.word w) ∧
      (∀ u : Nat, ({ r with gpios := r.gpios.set 10 u } : RaspMMGPIO).ClrGpio g = some r')) := by
  have hmask : ∀ b : Nat, (2 ^ g.toNat).testBit b = decide (b = g.toNat) := by
    intro b
    rw [Nat.testBit_two_pow]
    by_cases hb : b = g.toNat
    · simp [hb]
    · have : g.toNat ≠ b := fun e => hb e.symm
      simp [hb, this]
  have hS : r.SetGpio g = some { r with gpios := r.gpios.set 7 (2 ^ g.toNat) } := by
    unfold RaspMMGPIO.SetGpio
    rw [shl1_pin g h0 h1]
    exact store_eq r 7 _ (by omega)
  have hC : r.ClrGpio g = some { r with gpios := r.gpios.set 10 (2 ^ g.toNat) } := by
    unfold RaspMMGPIO.ClrGpio
    rw [shl1_pin g h0 h1]
    exact store_eq r 10 _ (by omega)
  refine ⟨⟨_, hS, by simp, ?_, ?_, ?_⟩, ⟨_, hC, by simp, ?_, ?_, ?_⟩⟩
  · intro b
    simp only [ RaspMMGPIO.word]
    rw [word_set_eq _ _ _ (by omega)]
    exact hmask b
  · intro w hw
    exact word_set_ne _ _ _ _ hw
  · intro u
    rw [← hS]
    unfold RaspMMGPIO.SetGpio
    exact store_forgets r 7 _ u
  · intro b
    simp only [ RaspMMGPIO.word]
    rw [word_set_eq _ _ _ (by omega)]
    exact hmask b
  · intro w hw
    exact word_set_ne _ _ _ _ hw
  · intro u
    rw [← hC]
    unfold RaspMMGPIO.ClrGpio
    exact store_forgets r 10 _ u

/-- Witness of C4 on the example window (12 words) and pin 31, the top bit. -/
theorem SetGpio_ClrGpio_plain_store_witness :
    11 ≤ exampleWindow.gpios.length ∧ (0 : Int) ≤ 31 ∧ (31 : Int) < 32 ∧
    (∃ r', exampleWindow.SetGpio 31 = some r' ∧ r'.gpios.length = exampleWindow.gpios.length ∧
      (∀ b : Nat, (r'.word 7).testBit b = decide (b = (31 : Int).toNat)) ∧
      (∀ w : Nat, w ≠ 7 → r'.word w = exampleWindow.word w) ∧
      (∀ u : Nat, ({ exampleWindow with gpios := exampleWindow.gpios.set 7 u } :
        RaspMMGPIO).SetGpio 31 = some r')) ∧
    (∃ r', exampleWindow.ClrGpio 31 = some r' ∧ r'.gpios.length = exampleWindow.gpios.length ∧
      (∀ b : Nat, (r'.word 10).testBit b = decide (b = (31 : Int).toNat)) ∧
      (∀ w : Nat, w ≠ 10 → r'.word w = exampleWindow.word w) ∧
      (∀ u : Nat, ({ exampleWindow with gpios := exampleWindow.gpios.set 10 u } :
        RaspMMGPIO).ClrGpio 31 = some r')) :=
  ⟨by decide, by decide, by decide,
    SetGpio_ClrGpio_plain_store exampleWindow 31 (by decide) (by decide) (by decide)⟩

/-- C6. Encoding table shape: the table has exactly 10 rows; for every digit
`d ≤ 9` the lookup succeeds and gives exactly 7 flags, each 0 or 1. The table is
a constant: no operation takes or returns it. -/
theorem segdisp_shape :
    segdisp.length = 10 ∧
    ∀ d : Nat, d ≤ 9 → ∃ row, segdisp[d]? = some row ∧ row.length = 7 ∧
      ∀ x ∈ row, x = 0 ∨ x = 1 := by
  refine ⟨rfl, ?_⟩
  intro d hd
  interval_cases d <;> exact ⟨_, rfl, rfl, by decide⟩

/-- Witness of C6 at digit 4. -/
theorem segdisp_shape_witness :
    ∃ row, segdisp[4]? = some row ∧ row.length = 7 ∧ ∀ x ∈ row, x = 0 ∨ x = 1 :=
  segdisp_shape.2 4 (by decide)

/-! ### `Stop` and `SetNumsDots` -/

theorem finRange_four : List.finRange 4 = [0, 1, 2, 3] := by decide

theorem finRange_seven : List.finRange 7 = [0, 1, 2, 3, 4, 5, 6] := by decide

theorem issued_of_trace (m m' : FourEightSegs) (es : List Event)
    (h : m'.trace = m.trace ++ es) : issued m m' = es := by
  unfold issued
  rw [h, List.drop_left]

/-- After `n` calls of `Stop` the counter is the old one plus `n`, modulo `2^32`. -/
theorem Stop_iterate_stop (m : FourEightSegs) (n : Nat) :
    (FourEightSegs.Stop^[n] m).stop % 2 ^ 32 = (m.stop + n) % 2 ^ 32 := by
  induction n with
  | zero => simp
  | succ k ih =>
    rw [Function.iterate_succ_apply']
    simp only [FourEightSegs.Stop]
    omega

/-- From a fresh multiplexer, `n < 2^32` calls of `Stop` leave the counter at `n`. -/
theorem Stop_iterate_fresh (b : Board) (n : Nat) (h : n < 2 ^ 32) :
    (FourEightSegs.Stop^[n] (NewFourEightSegs b)).stop = n := by
  have h1 := Stop_iterate_stop (NewFourEightSegs b) n
  have h2 : (FourEightSegs.Stop^[n] (NewFourEightSegs b)).stop < 2 ^ 32 := by
    cases n with
    | zero => simp [NewFourEightSegs]
    | succ k =>
      rw [Function.iterate_succ_apply']
      simp only [FourEightSegs.Stop]
      exact Nat.mod_lt _ (by norm_num)
  rw [Nat.mod_eq_of_lt h2] at h1
  rw [h1]
  simp only [NewFourEightSegs, Nat.zero_add]
  exact Nat.mod_eq_of_lt h

/-- Calls of `Stop` touch the counter only. -/
theorem Stop_iterate_frame (m : FourEightSegs) (n : Nat) :
    (FourEightSegs.Stop^[n] m).nums = m.nums ∧ (FourEightSegs.Stop^[n] m).dots = m.dots ∧
    (FourEightSegs.Stop^[n] m).segs = m.segs ∧ (FourEightSegs.Stop^[n] m).digs = m.digs ∧
    (FourEightSegs.Stop^[n] m).dot = m.dot ∧ (FourEightSegs.Stop^[n] m).trace = m.trace := by
  induction n with
  | zero => simp
  | succ k ih =>
    rw [Function.iterate_succ_apply']
    simpa [FourEightSegs.Stop] using ih

/-- C7, evaluated. One call of `Stop` on a fresh multiplexer makes the stop test
true and so does every further call up to the state `lastStop`; one more call
there wraps the 32-bit counter to 0 and the stop test is false again: `n` calls
do not always have the effect of one. -/
theorem Stop_counter_wraps :
    stopTest ((NewFourEightSegs goodBoard).Stop).stop = true ∧
    stopTest lastStop.stop = true ∧
    (lastStop.Stop).stop = 0 ∧
    stopTest (lastStop.Stop).stop = false := by
  simp [FourEightSegs.Stop, stopTest, lastStop, NewFourEightSegs]

/-- C8. Content update: after `SetNumsDots nums dots` slot `i` of the digit values
is `nums i` and slot `i` of the dot flags is `dots i`, for every `i`; the stop
flag, the pin assignment and the board are as before and no event is produced. -/
theorem SetNumsDots_content (m : FourEightSegs) (nums dots : Fin 4 → Nat) :
    (∀ i : Fin 4, (m.SetNumsDots nums dots).nums i = nums i) ∧
    (∀ i : Fin 4, (m.SetNumsDots nums dots).dots i = dots i) ∧
    (m.SetNumsDots nums dots).stop = m.stop ∧
    (m.SetNumsDots nums dots).segs = m.segs ∧
    (m.SetNumsDots nums dots).digs = m.digs ∧
    (m.SetNumsDots nums dots).dot = m.dot ∧
    (m.SetNumsDots nums dots).board = m.board ∧
    issued m (m.SetNumsDots nums dots) = [] := by
  unfold FourEightSegs.SetNumsDots
  rw [finRange_four]
  refine ⟨?_, ?_, rfl, rfl, rfl, rfl, rfl, ?_⟩
  · intro i
    fin_cases i <;> simp [Function.update]
  · intro i
    fin_cases i <;> simp [Function.update]
  · exact issued_of_trace _ _ _ (by simp)

/-! ### Digit step, pass and loop of `run` -/

theorem emit_eq_emits (m : FourEightSegs) (e : Event) : m.emit e = m.emits [e] := rfl

theorem emits_emits (m : FourEightSegs) (a b : List Event) :
    (m.emits a).emits b = m.emits (a ++ b) := by
  simp [FourEightSegs.emits, List.append_assoc]

theorem emits_nil (m : FourEightSegs) : m.emits [] = m := by
  simp [FourEightSegs.emits]

theorem issued_emits (m : FourEightSegs) (es : List Event) : issued m (m.emits es) = es :=
  issued_of_trace _ _ _ rfl

/-- The segment loop of `run` and `SetDigsSegs` for a table row `segdisp[v]`, `v ≤ 9`:
it does not panic and produces the seven segment writes in order. -/
theorem segLoop_eq (m : FourEightSegs) (v : Nat) (hv : v ≤ 9) :
    ∃ disp, segdisp[v]? = some disp ∧
      (List.range disp.length).foldlM
        (fun s i =>
          match s.segAt i with
          | none => Except.error s
          | some pin =>
            if disp.getD i 0 = 1 then Except.ok (s.SetGpio pin) else Except.ok (s.ClrGpio pin))
        m = Except.ok (m.emits ((List.finRange 7).map (segWrite m v))) := by
  interval_cases v <;>
    exact ⟨_, rfl, by
      simp [List.range, List.range.loop, finRange_seven, segWrite, segdisp,
        FourEightSegs.segAt, FourEightSegs.SetGpio, FourEightSegs.ClrGpio, FourEightSegs.emit,
        FourEightSegs.emits, bind, Except.bind]
      rfl⟩

/-- The first write of a digit step is on the pin of the previous position. -/
theorem prevWrite_eq (m : FourEightSegs) (j : Fin 4) :
    (if 0 < j.val then m.SetGpio (m.digs ⟨j.val - 1, by omega⟩) else m.SetGpio (m.digs 3))
      = m.emits [Event.SetGpio (m.digs (prevPos j))] := by
  fin_cases j <;> rfl

/-- A digit step whose loaded digit is at most 9 does not panic; it produces the
register operations `stepOps` and then one hold of `ms * 1000` nanoseconds. -/
theorem digitStep_eq (ld : Loads) (ms : Int) (p : Nat) (m : FourEightSegs) (j : Fin 4)
    (hv : ld.nums p j ≤ 9) :
    digitStep ld ms p m j = Except.ok
      (m.emits (stepEvents m ms (ld.nums p j) (ld.dots p j) j)) := by
  obtain ⟨disp, hd, hl⟩ :=
    segLoop_eq (m.emits [Event.SetGpio (m.digs (prevPos j))]) (ld.nums p j) hv
  unfold digitStep
  simp only [prevWrite_eq, hd]
  erw [hl]
  by_cases hdot : 0 < ld.dots p j
  · simp [hdot, stepEvents, stepOps, dotWrite, segWrite, FourEightSegs.SetGpio, FourEightSegs.ClrGpio,
      FourEightSegs.emit, FourEightSegs.emits, List.append_assoc]
  · simp [hdot, stepEvents, stepOps, dotWrite, segWrite, FourEightSegs.SetGpio, FourEightSegs.ClrGpio,
      FourEightSegs.emit, FourEightSegs.emits, List.append_assoc]

theorem AllDigsOff_eq (m : FourEightSegs) : m.AllDigsOff = m.emits (offOps m) := by
  unfold FourEightSegs.AllDigsOff
  rw [finRange_four]
  simp [FourEightSegs.SetGpio, FourEightSegs.emit, FourEightSegs.emits, offOps]

/-- A pass whose four loaded digits are at most 9 does not panic and produces `passEvents`. -/
theorem pass_eq (ld : Loads) (ms : Int) (p : Nat) (m : FourEightSegs)
    (hv : ∀ j : Fin 4, ld.nums p j ≤ 9) :
    (List.finRange 4).foldlM (digitStep ld ms p) m = Except.ok (m.emits (passEvents m ld ms p)) := by
  rw [finRange_four]
  simp only [List.foldlM, bind, Except.bind, digitStep_eq _ _ _ _ _ (hv _), emits_emits]
  rfl

theorem regOps_append (a b : List Event) : regOps (a ++ b) = regOps a ++ regOps b := by
  simp [regOps]

theorem regOps_stepOps (m : FourEightSegs) (v d : Nat) (j : Fin 4) :
    regOps (stepOps m v d j) = stepOps m v d j := by
  unfold regOps
  rw [List.filter_eq_self]
  intro e he
  simp only [stepOps, List.mem_append, List.mem_singleton, List.mem_map] at he
  rcases he with ((rfl | ⟨i, _, rfl⟩) | rfl) | rfl
  · rfl
  · unfold segWrite
    split <;> rfl
  · unfold dotWrite
    split <;> rfl
  · rfl

theorem regOps_stepEvents (m : FourEightSegs) (ms : Int) (v d : Nat) (j : Fin 4) :
    regOps (stepEvents m ms v d j) = stepOps m v d j := by
  unfold stepEvents
  rw [regOps_append, regOps_stepOps]
  simp [regOps, Event.isRegOp]

theorem regOps_passEvents (m : FourEightSegs) (ld : Loads) (ms : Int) (p : Nat) :
    regOps (passEvents m ld ms p) = passOps m ld p := by
  simp only [passEvents, passOps, regOps_append, regOps_stepEvents]

theorem regOps_offOps (m : FourEightSegs) : regOps (offOps m) = offOps m := rfl

theorem stopTest_false (v : Nat) (h : v = 0) : stopTest v = false := by
  simp [stopTest, h]

theorem stopTest_true (v : Nat) (h : 0 < v) : stopTest v = true := by
  simp [stopTest, h]

/-- The loop started at pass `p` with the stop test first true at pass `p + k`:
with more than `k` stop checks allowed it ends by itself, having produced `k`
passes and one completion signal. -/
theorem loop_done (ld : Loads) (ms : Int) :
    ∀ (k fuel p : Nat) (m : FourEightSegs), k < fuel →
      (∀ q, q < k → ld.stop (p + q) = 0) → 0 < ld.stop (p + k) →
      (∀ q, q < k → ∀ j : Fin 4, ld.nums (p + q) j ≤ 9) →
      loop ld ms fuel p m = { exit := Exit.done,
                              m := m.emits ((List.range' p k).flatMap (passEvents m ld ms)
                                ++ [Event.Done]) } := by
  intro k
  induction k with
  | zero =>
    intro fuel p m hf _ hs _
    obtain ⟨f, rfl⟩ : ∃ f, fuel = f + 1 := ⟨fuel - 1, by omega⟩
    have hs' : 0 < ld.stop p := by simpa using hs
    simp [loop, stopTest_true _ hs', emit_eq_emits]
  | succ k ih =>
    intro fuel p m hf hgo hs hv
    obtain ⟨f, rfl⟩ : ∃ f, fuel = f + 1 := ⟨fuel - 1, by omega⟩
    have h0 : stopTest (ld.stop p) = false := stopTest_false _ (by simpa using hgo 0 (by omega))
    have hp := pass_eq ld ms p m (fun j => by simpa using hv 0 (by omega) j)
    have hrec := ih f (p + 1) (m.emits (passEvents m ld ms p)) (by omega)
      (fun q hq => by have := hgo (q + 1) (by omega); rwa [show p + 1 + q = p + (q + 1) by omega])
      (by rwa [show p + 1 + k = p + (k + 1) by omega])
      (fun q hq j => by
        have := hv (q + 1) (by omega) j
        rwa [show p + 1 + q = p + (q + 1) by omega])
    unfold loop
    simp only [h0, hp, hrec, emits_emits]
    simp [List.range'_succ, List.append_assoc]
    rfl

/-- Whatever the number of stop checks followed, a loop whose loaded digits are at
most 9 has produced a whole number of passes, then the completion signal if it
ended; it never panics. -/
theorem loop_trace (ld : Loads) (ms : Int) (hv : ∀ p (j : Fin 4), ld.nums p j ≤ 9) :
    ∀ (fuel p : Nat) (m : FourEightSegs), ∃ n : Nat,
      (loop ld ms fuel p m = RunResult.mk Exit.running
          (m.emits ((List.range' p n).flatMap (passEvents m ld ms)))) ∨
      (loop ld ms fuel p m = RunResult.mk Exit.done
          (m.emits ((List.range' p n).flatMap (passEvents m ld ms) ++ [Event.Done]))) := by
  intro fuel
  induction fuel with
  | zero =>
    intro p m
    exact ⟨0, Or.inl (by simp [loop, emits_nil])⟩
  | succ f ih =>
    intro p m
    by_cases hs : stopTest (ld.stop p) = true
    · exact ⟨0, Or.inr (by simp [loop, hs, emit_eq_emits])⟩
    · have hp := pass_eq ld ms p m (hv p)
      obtain ⟨n, hn⟩ := ih (p + 1) (m.emits (passEvents m ld ms p))
      refine ⟨n + 1, ?_⟩
      have e1 : ∀ tl : List Event,
          (m.emits (passEvents m ld ms p)).emits
            ((List.range' (p + 1) n).flatMap (passEvents (m.emits (passEvents m ld ms p)) ld ms)
              ++ tl)
          = m.emits ((List.range' p (n + 1)).flatMap (passEvents m ld ms) ++ tl) := by
        intro tl
        rw [emits_emits, List.range'_succ, List.flatMap_cons, List.append_assoc]
        rfl
      rcases hn with hn | hn
      · left
        unfold loop
        simp only [hs, hp, hn]
        have := e1 []
        simp only [List.append_nil] at this
        simp [this]
      · right
        unfold loop
        simp only [hs, hp, hn]
        simp [e1 [Event.Done]]

theorem range_flatMap_regOps (m : FourEightSegs) (ld : Loads) (ms : Int) (l : List Nat) :
    regOps (l.flatMap (passEvents m ld ms)) = l.flatMap (passOps m ld) := by
  induction l with
  | nil => rfl
  | cons a t ih => simp only [List.flatMap_cons, regOps_append, regOps_passEvents, ih]

theorem done_not_mem_stepEvents (m : FourEightSegs) (ms : Int) (v d : Nat) (j : Fin 4) :
    Event.Done ∉ stepEvents m ms v d j := by
  intro h
  simp only [stepEvents, stepOps, List.mem_append, List.mem_singleton, List.mem_map] at h
  rcases h with (((h | ⟨i, _, h⟩) | h) | h) | h
  · cases h
  · unfold segWrite at h
    split at h <;> cases h
  · unfold dotWrite at h
    split at h <;> cases h
  · cases h
  · cases h

theorem done_not_mem_passes (m : FourEightSegs) (ld : Loads) (ms : Int) (l : List Nat) :
    Event.Done ∉ l.flatMap (passEvents m ld ms) := by
  intro h
  rw [List.mem_flatMap] at h
  obtain ⟨p, _, hp⟩ := h
  simp only [passEvents, List.mem_append] at hp
  rcases hp with ((hp | hp) | hp) | hp <;> exact done_not_mem_stepEvents _ _ _ _ _ hp

/-- C5. Digit step and polarity: for every position `j` and every loaded digit
`nums[j] ≤ 9`, the digit step returns without panic, leaves the pin assignment as
it was, and its register operations are exactly, in this order: `SetGpio` on the
digit pin of position `(j+3) mod 4`; for each segment `i = 0..6` `SetGpio(segs[i])`
when `segdisp[nums[j]][i] = 1` and `ClrGpio(segs[i])` otherwise; `SetGpio(dot)` when
`dots[j] > 0` and `ClrGpio(dot)` otherwise; `ClrGpio(digs[j])`. One hold follows. -/
theorem digitStep_ops (ld : Loads) (ms : Int) (p : Nat) (m : FourEightSegs) (j : Fin 4)
    (hv : ld.nums p j ≤ 9) :
    ∃ m', digitStep ld ms p m j = Except.ok m' ∧
      m'.segs = m.segs ∧ m'.digs = m.digs ∧ m'.dot = m.dot ∧
      regOps (issued m m') =
        [Event.SetGpio (m.digs ⟨(j.val + 3) % 4, Nat.mod_lt _ (by decide)⟩)]
          ++ (List.finRange 7).map (fun i =>
                if (segdisp.getD (ld.nums p j) []).getD i.val 0 = 1
                then Event.SetGpio (m.segs i) else Event.ClrGpio (m.segs i))
          ++ [if 0 < ld.dots p j then Event.SetGpio m.dot else Event.ClrGpio m.dot]
          ++ [Event.ClrGpio (m.digs j)] ∧
      issued m m' = regOps (issued m m') ++ [Event.Sleep (ms * 1000)] := by
  refine ⟨_, digitStep_eq ld ms p m j hv, rfl, rfl, rfl, ?_, ?_⟩
  · rw [issued_emits, regOps_stepEvents]
    rfl
  · rw [issued_emits, regOps_stepEvents]
    rfl

/-- Witness of C5: position 0 of the demo content (digit 1, dot off). -/
theorem digitStep_ops_witness :
    ∃ m', digitStep (Loads.quiet demo) 2 0 demo 0 = Except.ok m' ∧
      m'.segs = demo.segs ∧ m'.digs = demo.digs ∧ m'.dot = demo.dot ∧
      regOps (issued demo m') =
        [Event.SetGpio (demo.digs ⟨((0 : Fin 4).val + 3) % 4, Nat.mod_lt _ (by decide)⟩)]
          ++ (List.finRange 7).map (fun i =>
                if (segdisp.getD ((Loads.quiet demo).nums 0 0) []).getD i.val 0 = 1
                then Event.SetGpio (demo.segs i) else Event.ClrGpio (demo.segs i))
          ++ [if 0 < (Loads.quiet demo).dots 0 0 then Event.SetGpio demo.dot
              else Event.ClrGpio demo.dot]
          ++ [Event.ClrGpio (demo.digs 0)] ∧
      issued demo m' = regOps (issued demo m') ++ [Event.Sleep (2 * 1000)] :=
  digitStep_ops (Loads.quiet demo) 2 0 demo 0 (by decide)

/-- C9. Shape of the output of `run`: when the loaded stop flag is 0 at the checks
opening passes `0..k-1` and positive at the check after `k` passes, and the digits
loaded in those passes are at most 9, then `run` (followed for more than `k`
checks) ends by itself; its events are the four `SetGpio` of `AllDigsOff`, then
`k` whole passes (steps for positions 0, 1, 2, 3, each with its hold), then one
completion signal and nothing else; its register operations are those of
`AllDigsOff` and of the `k` passes. When the flag is set at the first check,
`k = 0` and the register operations are the four `SetGpio` only: no pin is cleared. -/
theorem run_shape (m : FourEightSegs) (ld : Loads) (ms : Int) (k fuel : Nat)
    (hfuel : k < fuel) (hgo : ∀ q, q < k → ld.stop q = 0) (hstop : 0 < ld.stop k)
    (hv : ∀ q, q < k → ∀ j : Fin 4, ld.nums q j ≤ 9) :
    (m.run ld ms fuel).exit = Exit.done ∧
    issued m (m.run ld ms fuel).m
      = offOps m ++ (List.range k).flatMap (passEvents m ld ms) ++ [Event.Done] ∧
    regOps (issued m (m.run ld ms fuel).m) = offOps m ++ (List.range k).flatMap (passOps m ld) ∧
    (issued m (m.run ld ms fuel).m).count Event.Done = 1 ∧
    (0 < ld.stop 0 → k = 0 ∧ regOps (issued m (m.run ld ms fuel).m) = offOps m ∧
      ∀ e ∈ issued m (m.run ld ms fuel).m, ∀ g, e ≠ Event.ClrGpio g) := by
  have hl := loop_done ld ms k fuel 0 (m.emits (offOps m)) hfuel
    (fun q hq => by simpa using hgo q hq) (by simpa using hstop)
    (fun q hq j => by simpa using hv q hq j)
  have hrun : m.run ld ms fuel = RunResult.mk Exit.done
      (m.emits (offOps m ++ (List.range k).flatMap (passEvents m ld ms) ++ [Event.Done])) := by
    unfold FourEightSegs.run
    rw [AllDigsOff_eq, hl, emits_emits, List.range_eq_range', List.append_assoc]
    rfl
  have hiss : issued m (m.run ld ms fuel).m
      = offOps m ++ (List.range k).flatMap (passEvents m ld ms) ++ [Event.Done] := by
    rw [hrun, issued_emits]
  have hreg : regOps (issued m (m.run ld ms fuel).m)
      = offOps m ++ (List.range k).flatMap (passOps m ld) := by
    rw [hiss, regOps_append, regOps_append, regOps_offOps, range_flatMap_regOps]
    simp [regOps, Event.isRegOp]
  refine ⟨by rw [hrun], hiss, hreg, ?_, ?_⟩
  · rw [hiss, List.count_append, List.count_append,
      List.count_eq_zero.mpr (done_not_mem_passes m ld ms _)]
    simp [offOps]
  · intro h0
    have hk : k = 0 := by
      by_contra hne
      have := hgo 0 (Nat.pos_of_ne_zero hne)
      omega
    subst hk
    refine ⟨rfl, by simpa using hreg, ?_⟩
    intro e he g
    rw [hiss] at he
    simp [offOps] at he
    rcases he with rfl | rfl | rfl | rfl | rfl <;> simp

/-- Witness of C9: the demo content, `Stop` called during the second pass. -/
theorem run_shape_witness :
    ((demo.run (Loads.stopAfter demo 2) 2 5).exit = Exit.done ∧
    issued demo (demo.run (Loads.stopAfter demo 2) 2 5).m
      = offOps demo ++ (List.range 2).flatMap (passEvents demo (Loads.stopAfter demo 2) 2)
          ++ [Event.Done] ∧
    regOps (issued demo (demo.run (Loads.stopAfter demo 2) 2 5).m)
      = offOps demo ++ (List.range 2).flatMap (passOps demo (Loads.stopAfter demo 2)) ∧
    (issued demo (demo.run (Loads.stopAfter demo 2) 2 5).m).count Event.Done = 1 ∧
    (0 < (Loads.stopAfter demo 2).stop 0 → 2 = 0 ∧
      regOps (issued demo (demo.run (Loads.stopAfter demo 2) 2 5).m) = offOps demo ∧
      ∀ e ∈ issued demo (demo.run (Loads.stopAfter demo 2) 2 5).m,
        ∀ g, e ≠ Event.ClrGpio g)) :=
  run_shape demo (Loads.stopAfter demo 2) 2 2 5 (by decide)
    (fun q hq => by simp [Loads.stopAfter, hq, demo])
    (by simp [Loads.stopAfter, FourEightSegs.Stop, demo])
    (fun q _ j => by fin_cases j <;> simp [Loads.stopAfter, demo])

/-! ### `Init` -/

/-- The twelve `OutGpio` calls of a successful `Init`, in order. -/
theorem Init_ok_eq (m : FourEightSegs) (segs : Fin 7 → Int) (digs : Fin 4 → Int) (dot : Int)
    (h : m.board.initResult = none) :
    m.Init segs digs dot = (none,
      { m with segs := segs, digs := digs, dot := dot,
               trace := m.trace ++ (Event.Init :: ((List.ofFn segs).map Event.OutGpio
                 ++ (List.ofFn digs).map Event.OutGpio ++ [Event.OutGpio dot])) }) := by
  have hs : ∀ f : Fin 7 → Int,
      Function.update (Function.update (Function.update (Function.update (Function.update
        (Function.update (Function.update f 0 (segs 0)) 1 (segs 1)) 2 (segs 2)) 3 (segs 3))
        4 (segs 4)) 5 (segs 5)) 6 (segs 6) = segs := by
    intro f
    funext i
    fin_cases i <;> simp [Function.update]
  have hd : ∀ f : Fin 4 → Int,
      Function.update (Function.update (Function.update (Function.update f 0 (digs 0))
        1 (digs 1)) 2 (digs 2)) 3 (digs 3) = digs := by
    intro f
    funext i
    fin_cases i <;> simp [Function.update]
  unfold FourEightSegs.Init
  simp only [FourEightSegs.emit, h, finRange_four, finRange_seven, List.foldl,
    FourEightSegs.OutGpio, hs, hd]
  simp [List.ofFn_succ, List.ofFn_zero, Fin.succ]
  exact ⟨hs _, hd _⟩

/-- C10. Initialisation result and error propagation: when `Init` of the board
returns an error `e`, `FourEightSegs.Init` returns `e`, keeps the stored pin
assignment and calls nothing but the board's `Init` (no `OutGpio`); when it
returns no error, `FourEightSegs.Init` returns none, stores `segs`, `digs` and
`dot`, and after the board's `Init` makes exactly 12 `OutGpio` calls:
`segs[0..6]` in order, then `digs[0..3]` in order, then `dot`. -/
theorem Init_result (m : FourEightSegs) (segs : Fin 7 → Int) (digs : Fin 4 → Int) (dot : Int) :
    (∀ e, m.board.initResult = some e →
      (m.Init segs digs dot).1 = some e ∧
      (m.Init segs digs dot).2.segs = m.segs ∧ (m.Init segs digs dot).2.digs = m.digs ∧
      (m.Init segs digs dot).2.dot = m.dot ∧
      issued m (m.Init segs digs dot).2 = [Event.Init] ∧
      regOps (issued m (m.Init segs digs dot).2) = []) ∧
    (m.board.initResult = none →
      (m.Init segs digs dot).1 = none ∧
      (m.Init segs digs dot).2.segs = segs ∧ (m.Init segs digs dot).2.digs = digs ∧
      (m.Init segs digs dot).2.dot = dot ∧
      issued m (m.Init segs digs dot).2 = Event.Init ::
        [Event.OutGpio (segs 0), Event.OutGpio (segs 1), Event.OutGpio (segs 2),
         Event.OutGpio (segs 3), Event.OutGpio (segs 4), Event.OutGpio (segs 5),
         Event.OutGpio (segs 6), Event.OutGpio (digs 0), Event.OutGpio (digs 1),
         Event.OutGpio (digs 2), Event.OutGpio (digs 3), Event.OutGpio dot] ∧
      (regOps (issued m (m.Init segs digs dot).2)).length = 12) := by
  constructor
  · intro e he
    have : m.Init segs digs dot = (some e, m.emit Event.Init) := by
      unfold FourEightSegs.Init
      simp only [FourEightSegs.emit, he]
    rw [this]
    refine ⟨rfl, rfl, rfl, rfl, ?_, ?_⟩
    · exact issued_of_trace _ _ _ rfl
    · rw [issued_of_trace _ _ _ rfl]
      rfl
  · intro h
    rw [Init_ok_eq m segs digs dot h]
    refine ⟨rfl, rfl, rfl, rfl, ?_, ?_⟩
    · rw [issued_of_trace _ _ _ rfl]
      simp [List.ofFn_succ, List.ofFn_zero, Fin.succ]
    · rw [issued_of_trace _ _ _ rfl]
      simp [regOps, Event.isRegOp, List.filter_cons, List.filter_append, List.filter_map,
        Function.comp_def]

/-- Witness of C10: the pin layout of `cmd/four8disp/main.go` on a board whose
`Init` fails and on one whose `Init` succeeds. -/
theorem Init_result_witness :
    ((( NewFourEightSegs badBoard).Init demo.segs demo.digs 4).1
        = some "open /dev/mem: permission denied" ∧
      (( NewFourEightSegs badBoard).Init demo.segs demo.digs 4).2.segs
        = (NewFourEightSegs badBoard).segs ∧
      (( NewFourEightSegs badBoard).Init demo.segs demo.digs 4).2.digs
        = (NewFourEightSegs badBoard).digs ∧
      (( NewFourEightSegs badBoard).Init demo.segs demo.digs 4).2.dot
        = (NewFourEightSegs badBoard).dot ∧
      issued (NewFourEightSegs badBoard)
        (( NewFourEightSegs badBoard).Init demo.segs demo.digs 4).2 = [Event.Init] ∧
      regOps (issued (NewFourEightSegs badBoard)
        (( NewFourEightSegs badBoard).Init demo.segs demo.digs 4).2) = []) ∧
    ((( NewFourEightSegs goodBoard).Init demo.segs demo.digs 4).1 = none ∧
      (( NewFourEightSegs goodBoard).Init demo.segs demo.digs 4).2.segs = demo.segs ∧
      (( NewFourEightSegs goodBoard).Init demo.segs demo.digs 4).2.digs = demo.digs ∧
      (( NewFourEightSegs goodBoard).Init demo.segs demo.digs 4).2.dot = 4 ∧
      issued (NewFourEightSegs goodBoard)
          (( NewFourEightSegs goodBoard).Init demo.segs demo.digs 4).2 = Event.Init ::
        [Event.OutGpio (demo.segs 0), Event.OutGpio (demo.segs 1), Event.OutGpio (demo.segs 2),
         Event.OutGpio (demo.segs 3), Event.OutGpio (demo.segs 4), Event.OutGpio (demo.segs 5),
         Event.OutGpio (demo.segs 6), Event.OutGpio (demo.digs 0), Event.OutGpio (demo.digs 1),
         Event.OutGpio (demo.digs 2), Event.OutGpio (demo.digs 3), Event.OutGpio 4] ∧
      (regOps (issued (NewFourEightSegs goodBoard)
        (( NewFourEightSegs goodBoard).Init demo.segs demo.digs 4).2)).length = 12) :=
  ⟨(Init_result (NewFourEightSegs badBoard) demo.segs demo.digs 4).1 _ rfl,
   (Init_result (NewFourEightSegs goodBoard) demo.segs demo.digs 4).2 rfl⟩

/-! ### Pin levels and break-before-make -/

theorem levels_nil (lv : Int → Bool) : levels [] lv = lv := rfl

theorem levels_cons (e : Event) (es : List Event) (lv : Int → Bool) :
    levels (e :: es) lv = levels es (e.drive lv) := rfl

theorem levels_append (a b : List Event) (lv : Int → Bool) :
    levels (a ++ b) lv = levels b (levels a lv) := by
  simp [levels, List.foldl_append]

theorem atMostOneLow_of_highExcept (m : FourEightSegs) (j : Fin 4) (lv : Int → Bool)
    (h : HighExcept m j lv) : AtMostOneLow m lv := by
  intro a b ha hb
  have h1 : a = j := by
    by_contra hne
    rw [h a hne] at ha
    cases ha
  have h2 : b = j := by
    by_contra hne
    rw [h b hne] at hb
    cases hb
  rw [h1, h2]

theorem highExcept_of_allHigh (m : FourEightSegs) (j : Fin 4) (lv : Int → Bool)
    (h : AllHigh m lv) : HighExcept m j lv := fun i _ => h i

/-- An event that is not a write on a digit pin leaves the digit pins as they are. -/
theorem drive_offDigits (m : FourEightSegs) (e : Event) (lv : Int → Bool)
    (h : e.offDigits m) (i : Fin 4) : e.drive lv (m.digs i) = lv (m.digs i) := by
  cases e with
  | SetGpio p =>
    have hp : m.digs i ≠ p := fun hp => (h i).1 (by rw [hp])
    simp [Event.drive, Function.update, hp]
  | ClrGpio p =>
    have hp : m.digs i ≠ p := fun hp => (h i).2 (by rw [hp])
    simp [Event.drive, Function.update, hp]
  | _ => rfl

theorem levels_offDigits (m : FourEightSegs) (es : List Event)
    (h : ∀ e ∈ es, Event.offDigits m e) (lv : Int → Bool) (i : Fin 4) :
    levels es lv (m.digs i) = lv (m.digs i) := by
  induction es generalizing lv with
  | nil => rfl
  | cons e t ih =>
    rw [levels_cons, ih (fun x hx => h x (List.mem_cons_of_mem _ hx)),
      drive_offDigits m e lv (h e (List.mem_cons_self _ _))]

/-- Safety of a concatenation from the safety of its two parts. -/
theorem safe_append (m : FourEightSegs) (a b : List Event) (lv : Int → Bool)
    (ha : Safe m a lv) (hb : Safe m b (levels a lv)) : Safe m (a ++ b) lv := by
  intro n
  rw [List.take_append_eq_append_take, levels_append]
  by_cases hn : n ≤ a.length
  · have : n - a.length = 0 := by omega
    rw [this, List.take_zero, levels_nil]
    exact ha n
  · have : List.take n a = a := List.take_of_length_le (by omega)
    rw [this]
    exact hb (n - a.length)

/-- Events off the digit pins are safe from levels with at most one digit pin low. -/
theorem safe_offDigits (m : FourEightSegs) (es : List Event)
    (h : ∀ e ∈ es, Event.offDigits m e) (lv : Int → Bool) (hlv : AtMostOneLow m lv) :
    Safe m es lv := by
  intro n a b ha hb
  have hsub : ∀ e ∈ es.take n, Event.offDigits m e := fun e he => h e (List.mem_of_mem_take he)
  rw [levels_offDigits m _ hsub] at ha hb
  exact hlv a b ha hb

/-- A single event is safe when the levels before and after it are. -/
theorem safe_single (m : FourEightSegs) (e : Event) (lv : Int → Bool)
    (h0 : AtMostOneLow m lv) (h1 : AtMostOneLow m (e.drive lv)) : Safe m [e] lv := by
  intro n
  cases n with
  | zero => exact h0
  | succ k =>
    rw [List.take_succ_cons, List.take_nil, levels_cons, levels_nil]
    exact h1

/-- The pins of a nodup assignment: digit pins differ from one another, from the
segment pins and from the dot pin. -/
theorem pins_distinct (m : FourEightSegs) (h : m.pins.Nodup) :
    (∀ i j : Fin 4, m.digs i = m.digs j → i = j) ∧
    (∀ (s : Fin 7) (i : Fin 4), m.segs s ≠ m.digs i) ∧
    (∀ i : Fin 4, m.dot ≠ m.digs i) := by
  unfold FourEightSegs.pins at h
  rw [List.nodup_append, List.nodup_append] at h
  obtain ⟨⟨_, hd, hsd⟩, _, hx⟩ := h
  refine ⟨?_, ?_, ?_⟩
  · intro i j hij
    exact (List.nodup_ofFn.mp hd) hij
  · intro s i he
    exact hsd ((List.mem_ofFn _ _).mpr ⟨s, rfl⟩) ((List.mem_ofFn _ _).mpr ⟨i, he.symm⟩)
  · intro i he
    exact hx (List.mem_append_right _ ((List.mem_ofFn _ _).mpr ⟨i, he.symm⟩))
      (List.mem_singleton.mpr rfl)

theorem stepEvents_split (m : FourEightSegs) (ms : Int) (v d : Nat) (j : Fin 4) :
    stepEvents m ms v d j = [Event.SetGpio (m.digs (prevPos j))] ++
      (((List.finRange 7).map (segWrite m v) ++ [dotWrite m d]) ++
        ([Event.ClrGpio (m.digs j)] ++ [Event.Sleep (ms * 1000)])) := by
  simp [stepEvents, stepOps, List.append_assoc]

/-- The segment and dot writes of a step are off the digit pins. -/
theorem mid_offDigits (m : FourEightSegs) (hp : m.pins.Nodup) (v d : Nat) :
    ∀ e ∈ (List.finRange 7).map (segWrite m v) ++ [dotWrite m d], Event.offDigits m e := by
  obtain ⟨_, hseg, hdot⟩ := pins_distinct m hp
  intro e he i
  simp only [List.mem_append, List.mem_map, List.mem_singleton] at he
  rcases he with ⟨s, _, rfl⟩ | rfl
  · unfold segWrite
    split
    · exact ⟨fun h => hseg s i (by injection h), fun h => by cases h⟩
    · exact ⟨fun h => (by cases h), fun h => hseg s i (by injection h)⟩
  · unfold dotWrite
    split
    · exact ⟨fun h => hdot i (by injection h), fun h => by cases h⟩
    · exact ⟨fun h => (by cases h), fun h => hdot i (by injection h)⟩

/-- One digit step, started with every digit pin high except perhaps the previous
one, keeps at most one digit pin low throughout and ends with every digit pin
high except its own. -/
theorem step_safe (m : FourEightSegs) (hp : m.pins.Nodup) (ms : Int) (v d : Nat) (j : Fin 4)
    (lv : Int → Bool) (hpre : HighExcept m (prevPos j) lv) :
    Safe m (stepEvents m ms v d j) lv ∧ HighExcept m j (levels (stepEvents m ms v d j) lv) := by
  obtain ⟨hdig, _, _⟩ := pins_distinct m hp
  have hmid := mid_offDigits m hp v d
  have h1 : AllHigh m ((Event.SetGpio (m.digs (prevPos j))).drive lv) := by
    intro i
    by_cases hi : m.digs i = m.digs (prevPos j)
    · simp [Event.drive, Function.update, hi]
    · have hne : i ≠ prevPos j := fun e => hi (by rw [e])
      simp [Event.drive, Function.update, hi, hpre i hne]
  have h2 : AllHigh m (levels ((List.finRange 7).map (segWrite m v) ++ [dotWrite m d])
      ((Event.SetGpio (m.digs (prevPos j))).drive lv)) := by
    intro i
    rw [levels_offDigits m _ hmid]
    exact h1 i
  have h3 : ∀ l : Int → Bool, AllHigh m l →
      HighExcept m j ((Event.ClrGpio (m.digs j)).drive l) := by
    intro l hl i hi
    have hne : m.digs i ≠ m.digs j := fun e => hi (hdig i j e)
    simp [Event.drive, Function.update, hne, hl i]
  constructor
  · rw [stepEvents_split]
    refine safe_append m _ _ lv
      (safe_single m _ lv (atMostOneLow_of_highExcept m _ lv hpre)
        (atMostOneLow_of_highExcept m j _ (highExcept_of_allHigh m j _ h1))) ?_
    refine safe_append m _ _ _
      (safe_offDigits m _ hmid _
        (atMostOneLow_of_highExcept m j _ (highExcept_of_allHigh m j _ h1))) ?_
    refine safe_append m _ _ _
      (safe_single m _ _ (atMostOneLow_of_highExcept m j _ (highExcept_of_allHigh m j _ h2))
        (atMostOneLow_of_highExcept m j _ (h3 _ h2))) ?_
    exact safe_single m _ _ (atMostOneLow_of_highExcept m j _ (h3 _ h2))
      (atMostOneLow_of_highExcept m j _ (h3 _ h2))
  · rw [stepEvents_split, levels_append, levels_append, levels_append]
    exact h3 _ h2

/-- A whole pass, started with every digit pin high except perhaps that of
position 3, keeps at most one digit pin low throughout and ends the same way. -/
theorem pass_safe (m : FourEightSegs) (hp : m.pins.Nodup) (ld : Loads) (ms : Int) (p : Nat)
    (lv : Int → Bool) (hpre : HighExcept m 3 lv) :
    Safe m (passEvents m ld ms p) lv ∧ HighExcept m 3 (levels (passEvents m ld ms p) lv) := by
  obtain ⟨s0, e0⟩ := step_safe m hp ms (ld.nums p 0) (ld.dots p 0) 0 lv hpre
  obtain ⟨s1, e1⟩ := step_safe m hp ms (ld.nums p 1) (ld.dots p 1) 1 _ e0
  obtain ⟨s2, e2⟩ := step_safe m hp ms (ld.nums p 2) (ld.dots p 2) 2 _ e1
  obtain ⟨s3, e3⟩ := step_safe m hp ms (ld.nums p 3) (ld.dots p 3) 3 _ e2
  unfold passEvents
  constructor
  · refine safe_append m _ _ lv (safe_append m _ _ lv (safe_append m _ _ lv s0 s1) ?_) ?_
    · rw [levels_append]
      exact s2
    · rw [levels_append, levels_append]
      exact s3
  · rw [levels_append, levels_append, levels_append]
    exact e3

/-- Any number of passes is safe from levels with every digit pin high except
perhaps that of position 3. -/
theorem passes_safe (m : FourEightSegs) (hp : m.pins.Nodup) (ld : Loads) (ms : Int)
    (l : List Nat) : ∀ lv : Int → Bool, HighExcept m 3 lv →
      Safe m (l.flatMap (passEvents m ld ms)) lv ∧
      HighExcept m 3 (levels (l.flatMap (passEvents m ld ms)) lv) := by
  induction l with
  | nil =>
    intro lv h
    exact ⟨safe_offDigits m [] (fun e he => by cases he) lv
      (atMostOneLow_of_highExcept m 3 lv h), h⟩
  | cons a t ih =>
    intro lv h
    obtain ⟨sa, ea⟩ := pass_safe m hp ld ms a lv h
    obtain ⟨st, et⟩ := ih _ ea
    rw [List.flatMap_cons]
    exact ⟨safe_append m _ _ lv sa st, by rw [levels_append]; exact et⟩

theorem offOps_allHigh (m : FourEightSegs) (lv : Int → Bool) : AllHigh m (levels (offOps m) lv) := by
  intro i
  fin_cases i <;> simp [offOps, levels, Event.drive, Function.update]

/-- The events of `run` after those of `AllDigsOff` are safe from the levels that
`AllDigsOff` leaves, whatever the number of stop checks followed. -/
theorem run_tail_safe (m : FourEightSegs) (ld : Loads) (ms : Int) (fuel : Nat)
    (hp : m.pins.Nodup) (hv : ∀ p (j : Fin 4), ld.nums p j ≤ 9) (lv0 : Int → Bool) :
    ∃ R : List Event, issued m (m.run ld ms fuel).m = offOps m ++ R ∧
      Safe m R (levels (offOps m) lv0) := by
  have h3 : HighExcept m 3 (levels (offOps m) lv0) :=
    highExcept_of_allHigh m 3 _ (offOps_allHigh m lv0)
  obtain ⟨n, hn⟩ := loop_trace ld ms hv fuel 0 (m.emits (offOps m))
  obtain ⟨sp, ep⟩ := passes_safe m hp ld ms (List.range' 0 n) _ h3
  unfold FourEightSegs.run
  rw [AllDigsOff_eq]
  rcases hn with hn | hn
  · refine ⟨(List.range' 0 n).flatMap (passEvents m ld ms), ?_, sp⟩
    rw [hn, emits_emits, issued_emits]
    rfl
  · refine ⟨(List.range' 0 n).flatMap (passEvents m ld ms) ++ [Event.Done], ?_, ?_⟩
    · rw [hn, emits_emits, issued_emits]
      rfl
    · refine safe_append m _ _ _ sp (safe_offDigits m _ ?_ _ (atMostOneLow_of_highExcept m 3 _ ep))
      intro e he i
      rw [List.mem_singleton] at he
      subst he
      exact ⟨fun h => (by cases h), fun h => (by cases h)⟩

/-- C1. Break-before-make: with `SetGpio p` driving pin `p` high and `ClrGpio p`
driving it low, for every assignment of 12 pairwise distinct pins and loaded
digits at most 9, at every point of the events of `run` after the four writes of
its `AllDigsOff` (whatever the levels before, and however long the loop is
followed) at most one digit pin is low; and every digit step returns, starts with
`SetGpio` on the digit pin of the previous position and writes no digit pin again
until its `ClrGpio` on the digit pin of its own position, followed by the hold. -/
theorem run_break_before_make (m : FourEightSegs) (ld : Loads) (ms : Int) (fuel : Nat)
    (hp : m.pins.Nodup) (hv : ∀ p (j : Fin 4), ld.nums p j ≤ 9) :
    (∀ (lv0 : Int → Bool) (n : Nat), 4 ≤ n →
      AtMostOneLow m (levels ((issued m (m.run ld ms fuel).m).take n) lv0)) ∧
    (∀ (p : Nat) (j : Fin 4) (s : FourEightSegs),
      s.segs = m.segs → s.digs = m.digs → s.dot = m.dot →
      ∃ s' mid, digitStep ld ms p s j = Except.ok s' ∧
        issued s s' = Event.SetGpio (m.digs (prevPos j)) ::
          (mid ++ [Event.ClrGpio (m.digs j), Event.Sleep (ms * 1000)]) ∧
        ∀ e ∈ mid, Event.offDigits m e) := by
  constructor
  · intro lv0 n hn
    obtain ⟨R, hR, hs⟩ := run_tail_safe m ld ms fuel hp hv lv0
    rw [hR, List.take_append_eq_append_take, levels_append]
    have h4 : List.take n (offOps m) = offOps m := List.take_of_length_le (by simpa [offOps] using hn)
    rw [h4]
    exact hs (n - (offOps m).length)
  · intro p j s h1 h2 h3
    have hps : s.pins.Nodup := by
      unfold FourEightSegs.pins
      rw [h1, h2, h3]
      exact hp
    refine ⟨_, (List.finRange 7).map (segWrite s (ld.nums p j)) ++ [dotWrite s (ld.dots p j)],
      digitStep_eq ld ms p s j (hv p j), ?_, ?_⟩
    · rw [issued_emits, stepEvents_split, h2]
      simp
    · intro e he i
      have := mid_offDigits s hps _ _ e he i
      rwa [h2] at this

/-- Witness of C1: the demo multiplexer with no stop request, followed for three passes. -/
theorem run_break_before_make_witness :
    demo.pins.Nodup ∧
    (∀ (lv0 : Int → Bool) (n : Nat), 4 ≤ n →
      AtMostOneLow demo
        (levels ((issued demo (demo.run (Loads.quiet demo) 2 3).m).take n) lv0)) ∧
    (∀ (p : Nat) (j : Fin 4) (s : FourEightSegs),
      s.segs = demo.segs → s.digs = demo.digs → s.dot = demo.dot →
      ∃ s' mid, digitStep (Loads.quiet demo) 2 p s j = Except.ok s' ∧
        issued s s' = Event.SetGpio (demo.digs (prevPos j)) ::
          (mid ++ [Event.ClrGpio (demo.digs j), Event.Sleep (2 * 1000)]) ∧
        ∀ e ∈ mid, Event.offDigits demo e) :=
  ⟨by decide,
    run_break_before_make demo (Loads.quiet demo) 2 3 (by decide)
      (fun p j => by fin_cases j <;> simp [Loads.quiet, demo])⟩

/-! ### Digit range, dwell, blanking and the table again -/

/-- The events of a run that ends by itself after `k` passes. -/
theorem run_done_eq (m : FourEightSegs) (ld : Loads) (ms : Int) (k fuel : Nat)
    (hfuel : k < fuel) (hgo : ∀ q, q < k → ld.stop q = 0) (hstop : 0 < ld.stop k)
    (hv : ∀ q, q < k → ∀ j : Fin 4, ld.nums q j ≤ 9) :
    m.run ld ms fuel = RunResult.mk Exit.done
      (m.emits (offOps m ++ (List.range k).flatMap (passEvents m ld ms) ++ [Event.Done])) := by
  have hl := loop_done ld ms k fuel 0 (m.emits (offOps m)) hfuel
    (fun q hq => by simpa using hgo q hq) (by simpa using hstop)
    (fun q hq j => by simpa using hv q hq j)
  unfold FourEightSegs.run
  rw [AllDigsOff_eq, hl, emits_emits, List.range_eq_range', List.append_assoc]
  rfl

/-- A digit step whose loaded digit is 10 or more panics at the table lookup,
having written the previous digit pin only. -/
theorem digitStep_panic (ld : Loads) (ms : Int) (p : Nat) (m : FourEightSegs) (j : Fin 4)
    (hv : 10 ≤ ld.nums p j) :
    digitStep ld ms p m j = Except.error (m.emits [Event.SetGpio (m.digs (prevPos j))]) := by
  have hnone : segdisp[ld.nums p j]? = none := by
    apply List.getElem?_eq_none
    simpa [segdisp] using hv
  unfold digitStep
  simp only [prevWrite_eq, hnone]

/-- For a digit `v ≤ 9`, `SetDigsSegs` returns, having made the seven segment writes. -/
theorem SetDigsSegs_eq (m : FourEightSegs) (v : Nat) (hv : v ≤ 9) :
    m.SetDigsSegs (v : Int) = Except.ok (m.emits ((List.finRange 7).map (segWrite m v))) := by
  obtain ⟨disp, hd, hl⟩ := segLoop_eq m v hv
  unfold FourEightSegs.SetDigsSegs
  simp only [Int.toNat_ofNat, Int.ofNat_nonneg, if_true, hd]
  erw [hl]

/-- For a digit `v ≥ 10`, `SetDigsSegs` panics at the table lookup, before any write. -/
theorem SetDigsSegs_panic (m : FourEightSegs) (v : Nat) (hv : 10 ≤ v) :
    m.SetDigsSegs (v : Int) = Except.error m := by
  have hnone : segdisp[v]? = none := by
    apply List.getElem?_eq_none
    simpa [segdisp] using hv
  unfold FourEightSegs.SetDigsSegs
  simp only [Int.toNat_ofNat, Int.ofNat_nonneg, if_true, hnone]

/-- C11. Digit range is not enforced: `SetNumsDots` stores every value it is
given; the digit step for position `j` returns exactly when the loaded digit is
at most 9, and for a digit of 10 or more it panics at the table lookup with the
write on the previous digit pin as its only event (no segment, dot or own digit
write); likewise `SetDigsSegs v` returns exactly when `v ≤ 9`, and for `v ≥ 10`
it panics before any write. -/
theorem digit_range_not_enforced (m : FourEightSegs) (ld : Loads) (ms : Int) (p : Nat)
    (j : Fin 4) (nums dots : Fin 4 → Nat) :
    (∀ i : Fin 4, (m.SetNumsDots nums dots).nums i = nums i) ∧
    ((∃ m', digitStep ld ms p m j = Except.ok m') ↔ ld.nums p j ≤ 9) ∧
    (10 ≤ ld.nums p j → ∃ m', digitStep ld ms p m j = Except.error m' ∧
      issued m m' = [Event.SetGpio (m.digs (prevPos j))]) ∧
    (∀ v : Nat, (∃ m', m.SetDigsSegs (v : Int) = Except.ok m') ↔ v ≤ 9) ∧
    (∀ v : Nat, 10 ≤ v → m.SetDigsSegs (v : Int) = Except.error m ∧
      issued m m = []) := by
  refine ⟨?_, ?_, ?_, ?_, ?_⟩
  · intro i
    unfold FourEightSegs.SetNumsDots
    rw [finRange_four]
    fin_cases i <;> simp [Function.update]
  · constructor
    · rintro ⟨m', hm'⟩
      by_contra hlt
      rw [digitStep_panic ld ms p m j (by omega)] at hm'
      cases hm'
    · intro hv
      exact ⟨_, digitStep_eq ld ms p m j hv⟩
  · intro hv
    exact ⟨_, digitStep_panic ld ms p m j hv, issued_emits _ _⟩
  · intro v
    constructor
    · rintro ⟨m', hm'⟩
      by_contra hlt
      rw [SetDigsSegs_panic m v (by omega)] at hm'
      cases hm'
    · intro hv
      exact ⟨_, SetDigsSegs_eq m v hv⟩
  · intro v hv
    exact ⟨SetDigsSegs_panic m v hv, by simp [issued]⟩

/-- Witness of C11: the demo multiplexer after `SetNumsDots` stored the digit 12
in slot 0, and `SetDigsSegs 12`. -/
theorem digit_range_not_enforced_witness :
    ((demo.SetNumsDots ![12, 2, 3, 4] ![0, 0, 0, 0]).nums 0 = 12) ∧
    (∃ m', digitStep (Loads.quiet (demo.SetNumsDots ![12, 2, 3, 4] ![0, 0, 0, 0])) 2 0 demo 0
        = Except.error m' ∧
      issued demo m' = [Event.SetGpio (demo.digs (prevPos 0))]) ∧
    (demo.SetDigsSegs ((12 : Nat) : Int) = Except.error demo ∧ issued demo demo = []) :=
  ⟨(digit_range_not_enforced demo (Loads.quiet demo) 2 0 0 ![12, 2, 3, 4] ![0, 0, 0, 0]).1 0,
   (digit_range_not_enforced demo
      (Loads.quiet (demo.SetNumsDots ![12, 2, 3, 4] ![0, 0, 0, 0])) 2 0 0
      ![12, 2, 3, 4] ![0, 0, 0, 0]).2.2.1
      (by simp [Loads.quiet, FourEightSegs.SetNumsDots, finRange_four, Function.update]),
   (digit_range_not_enforced demo (Loads.quiet demo) 2 0 0 ![12, 2, 3, 4]
      ![0, 0, 0, 0]).2.2.2.2 12 (by decide)⟩

theorem holds_append (a b : List Event) : holds (a ++ b) = holds a ++ holds b := by
  simp [holds, List.filterMap_append]

theorem holds_of_regOps (es : List Event) (h : ∀ e ∈ es, Event.isRegOp e = true) :
    holds es = [] := by
  induction es with
  | nil => rfl
  | cons e t ih =>
    have he := h e (List.mem_cons_self _ _)
    have ht := ih (fun x hx => h x (List.mem_cons_of_mem _ hx))
    cases e <;> simp_all [holds, Event.isRegOp]

/-- A digit step holds once, for `ms * 1000` nanoseconds. -/
theorem holds_stepEvents (m : FourEightSegs) (ms : Int) (v d : Nat) (j : Fin 4) :
    holds (stepEvents m ms v d j) = [ms * 1000] := by
  have h := List.filter_eq_self.mp (regOps_stepOps m v d j)
  unfold stepEvents
  rw [holds_append, holds_of_regOps _ h]
  rfl

/-- A pass holds four times, each for `ms * 1000` nanoseconds. -/
theorem holds_passEvents (m : FourEightSegs) (ld : Loads) (ms : Int) (p : Nat) :
    holds (passEvents m ld ms p) = [ms * 1000, ms * 1000, ms * 1000, ms * 1000] := by
  unfold passEvents
  simp only [holds_append, holds_stepEvents]
  rfl

/-- C12, evaluated. `Run 2` on the demo multiplexer, stopped after one pass, holds
each of the four digits once for 2000 nanoseconds, which is 2 microseconds and
not the 2 milliseconds (2000000 nanoseconds) its comment announces. -/
theorem Run_dwell_unit :
    holds (issued demo (demo.Run (Loads.stopAfter demo 1) 2 3).m) = [2000, 2000, 2000, 2000] ∧
    (2000 : Int) ≠ 2 * 1000000 := by
  constructor
  · have h := run_done_eq demo (Loads.stopAfter demo 1) 2 1 3 (by decide)
      (fun q hq => by
        have hq0 : q = 0 := by omega
        subst hq0
        simp [Loads.stopAfter, demo])
      (by simp [Loads.stopAfter, FourEightSegs.Stop, demo])
      (fun q _ j => by fin_cases j <;> simp [Loads.stopAfter, demo])
    unfold FourEightSegs.Run
    rw [h, issued_emits, holds_append, holds_append, holds_of_regOps (offOps demo)
      (List.filter_eq_self.mp (regOps_offOps demo))]
    simp only [List.range_succ, List.range_zero, List.nil_append, List.flatMap_cons,
      List.flatMap_nil, List.append_nil, holds_passEvents]
    rfl
  · decide

/-- C14. Blanking: `AllDigsOff` produces exactly the four events `SetGpio(digs[0])`
to `SetGpio(digs[3])`; from any levels, every digit pin is high afterwards; the
digit values, dot flags, stop flag and pin assignment are as before. -/
theorem AllDigsOff_blanks (m : FourEightSegs) (lv : Int → Bool) :
    issued m m.AllDigsOff = [Event.SetGpio (m.digs 0), Event.SetGpio (m.digs 1),
      Event.SetGpio (m.digs 2), Event.SetGpio (m.digs 3)] ∧
    (∀ i : Fin 4, levels (issued m m.AllDigsOff) lv (m.digs i) = true) ∧
    m.AllDigsOff.nums = m.nums ∧ m.AllDigsOff.dots = m.dots ∧ m.AllDigsOff.stop = m.stop ∧
    m.AllDigsOff.segs = m.segs ∧ m.AllDigsOff.digs = m.digs ∧ m.AllDigsOff.dot = m.dot := by
  rw [AllDigsOff_eq, issued_emits]
  exact ⟨rfl, offOps_allHigh m lv, rfl, rfl, rfl, rfl, rfl, rfl⟩

/-- C19. The encoding table is injective: two different digits `d, e ≤ 9` have
different rows, that is, they differ in the flag of at least one segment. -/
theorem segdisp_injective (d e : Nat) (hd : d ≤ 9) (he : e ≤ 9) (hne : d ≠ e) :
    segdisp[d]? ≠ segdisp[e]? ∧
    ∃ i : Fin 7, (segdisp.getD d []).getD i.val 0 ≠ (segdisp.getD e []).getD i.val 0 := by
  interval_cases d <;> interval_cases e <;>
    first
    | exact absurd rfl hne
    | exact ⟨by decide, by decide⟩

/-- Witness of C19: the digits 3 and 9. -/
theorem segdisp_injective_witness :
    segdisp[3]? ≠ segdisp[9]? ∧
    ∃ i : Fin 7, (segdisp.getD 3 []).getD i.val 0 ≠ (segdisp.getD 9 []).getD i.val 0 :=
  segdisp_injective 3 9 (by decide) (by decide) (by decide)

/-! ### Window bounds -/

/-- A byte sequence holds a quarter as many whole words. -/
theorem wordsOf_length : ∀ b : List Nat, (wordsOf b).length = b.length / 4
  | [] => by simp [wordsOf]
  | [_] => by simp [wordsOf]
  | [_, _] => by simp [wordsOf]
  | [_, _, _] => by simp [wordsOf]
  | _ :: _ :: _ :: _ :: rest => by
    have ih := wordsOf_length rest
    simp only [wordsOf, List.length_cons, ih]
    omega

/-- C18. Window bounds: a window mapped with the page size of the constructor,
4096 bytes, has 1024 words; for every pin `0 ≤ g ≤ 53` the word index `g/10` of
`OutGpio`, the index 7 of `SetGpio` and the index 10 of `ClrGpio` are below that
number, and the three operations return without panic. -/
theorem window_bounds (rasp : BoardType) (b : List Nat) (g : Int)
    (hb : (b.length : Int) = ( NewRaspMMGPIO rasp).MMPageSize) (h0 : 0 ≤ g) (h1 : g ≤ 53) :
    ( NewRaspMMGPIO rasp).MMPageSize = 4096 ∧
    ∃ ws, bytesToInts b = some ws ∧ ws.length = 1024 ∧
      0 ≤ Int.tdiv g 10 ∧ Int.tdiv g 10 < ws.length ∧ 7 < ws.length ∧ 10 < ws.length ∧
      (({ NewRaspMMGPIO rasp with gpios := ws } : RaspMMGPIO).OutGpio g).isSome = true ∧
      (({ NewRaspMMGPIO rasp with gpios := ws } : RaspMMGPIO).SetGpio g).isSome = true ∧
      (({ NewRaspMMGPIO rasp with gpios := ws } : RaspMMGPIO).ClrGpio g).isSome = true := by
  have hsize : ( NewRaspMMGPIO rasp).MMPageSize = 4096 := by
    cases rasp <;> rfl
  rw [hsize] at hb
  have hlen : b.length = 4096 := by omega
  have hne : b ≠ [] := by
    intro h
    rw [h] at hlen
    cases hlen
  have hw : (wordsOf b).length = 1024 := by rw [wordsOf_length, hlen]
  have hd0 : 0 ≤ Int.tdiv g 10 := Int.tdiv_nonneg h0 (by decide)
  have hd1 : Int.tdiv g 10 < 1024 := by
    have := Int.tdiv_add_tmod g 10
    have := tmod10_nonneg g h0
    omega
  refine ⟨hsize, wordsOf b, by simp [bytesToInts, hne], hw, hd0, by rw [hw]; exact_mod_cast hd1,
    by omega, by omega, ?_, ?_, ?_⟩
  · rw [OutGpio_eq _ g hd0 (by simp only [hw]; exact_mod_cast hd1)]
    rfl
  · simp [ RaspMMGPIO.SetGpio, RaspMMGPIO.store, hw]
  · simp [ RaspMMGPIO.ClrGpio, RaspMMGPIO.store, hw]

/-- Witness of C18: a page of 4096 zero bytes on the Raspberry Pi Zero and pin 53. -/
theorem window_bounds_witness :
    ( NewRaspMMGPIO BoardType.RASP_ZERO).MMPageSize = 4096 ∧
    ∃ ws, bytesToInts (List.replicate 4096 0) = some ws ∧ ws.length = 1024 ∧
      0 ≤ Int.tdiv 53 10 ∧ Int.tdiv 53 10 < ws.length ∧ 7 < ws.length ∧ 10 < ws.length ∧
      (({ NewRaspMMGPIO BoardType.RASP_ZERO with gpios := ws } : RaspMMGPIO).OutGpio 53).isSome
        = true ∧
      (({ NewRaspMMGPIO BoardType.RASP_ZERO with gpios := ws } : RaspMMGPIO).SetGpio 53).isSome
        = true ∧
      (({ NewRaspMMGPIO BoardType.RASP_ZERO with gpios := ws } : RaspMMGPIO).ClrGpio 53).isSome
        = true :=
  window_bounds BoardType.RASP_ZERO (List.replicate 4096 0) 53
    (by rw [List.length_replicate]; rfl) (by decide) (by decide)

/-! ### The diagnostic operations -/

theorem AllDigsOn_eq (m : FourEightSegs) :
    m.AllDigsOn = m.emits [Event.ClrGpio (m.digs 0), Event.ClrGpio (m.digs 1),
      Event.ClrGpio (m.digs 2), Event.ClrGpio (m.digs 3)] := by
  unfold FourEightSegs.AllDigsOn
  rw [finRange_four]
  simp [FourEightSegs.ClrGpio, FourEightSegs.emit, FourEightSegs.emits]

/-- The seven segment writes for digit 8 are all `SetGpio`. -/
theorem segWrite_eight (m : FourEightSegs) :
    (List.finRange 7).map (segWrite m 8) = [Event.SetGpio (m.segs 0), Event.SetGpio (m.segs 1),
      Event.SetGpio (m.segs 2), Event.SetGpio (m.segs 3), Event.SetGpio (m.segs 4),
      Event.SetGpio (m.segs 5), Event.SetGpio (m.segs 6)] := by
  rw [finRange_seven]
  simp [segWrite, segdisp]
  refine ⟨?_, ?_, ?_, ?_⟩ <;> rfl

/-- Every segment write addresses a segment pin. -/
theorem segWrite_target (m : FourEightSegs) (v : Nat) (s : Fin 7) :
    (segWrite m v s).target = some (m.segs s) := by
  unfold segWrite
  split <;> rfl

/-- `AllDigsOn` followed by `SetDigsSegs 8`: the events produced. -/
theorem diagnostic_eq (m : FourEightSegs) :
    m.AllDigsOn.SetDigsSegs ((8 : Nat) : Int) = Except.ok
      (m.emits ([Event.ClrGpio (m.digs 0), Event.ClrGpio (m.digs 1), Event.ClrGpio (m.digs 2),
          Event.ClrGpio (m.digs 3)] ++
        [Event.SetGpio (m.segs 0), Event.SetGpio (m.segs 1), Event.SetGpio (m.segs 2),
          Event.SetGpio (m.segs 3), Event.SetGpio (m.segs 4), Event.SetGpio (m.segs 5),
          Event.SetGpio (m.segs 6)])) := by
  rw [AllDigsOn_eq, SetDigsSegs_eq _ 8 (by decide), emits_emits, segWrite_eight]
  rfl

/-- C15, as stated, fails: in `clash` the 11 segment and digit pins are pairwise
distinct and the dot is wired to pin 9; `AllDigsOn` then `SetDigsSegs 8` writes
pin 9 (as segment pin 0), so there is a write to the dot pin. -/
theorem diagnostic_writes_dot_pin :
    (List.ofFn clash.segs ++ List.ofFn clash.digs).Nodup ∧
    ∃ m', clash.AllDigsOn.SetDigsSegs ((8 : Nat) : Int) = Except.ok m' ∧
      Event.SetGpio clash.dot ∈ issued clash m' := by
  refine ⟨by decide, _, diagnostic_eq clash, ?_⟩
  rw [issued_emits]
  simp [clash, demo]

/-- C15, amended. For every pin assignment whose 11 segment and digit pins are
pairwise distinct, `AllDigsOn` followed by `SetDigsSegs 8` returns, produces
exactly four `ClrGpio` on the digit pins followed by seven `SetGpio` on the
segment pins, with no hold; from any levels, all four digit pins are low and all
seven segment pins are high afterwards; and when the dot pin is none of these 11
pins, no operation addresses the dot pin. -/
theorem diagnostic_scenario (m : FourEightSegs) (lv : Int → Bool)
    (h11 : (List.ofFn m.segs ++ List.ofFn m.digs).Nodup) :
    ∃ m', m.AllDigsOn.SetDigsSegs ((8 : Nat) : Int) = Except.ok m' ∧
      issued m m' =
        [Event.ClrGpio (m.digs 0), Event.ClrGpio (m.digs 1), Event.ClrGpio (m.digs 2),
          Event.ClrGpio (m.digs 3)] ++
        [Event.SetGpio (m.segs 0), Event.SetGpio (m.segs 1), Event.SetGpio (m.segs 2),
          Event.SetGpio (m.segs 3), Event.SetGpio (m.segs 4), Event.SetGpio (m.segs 5),
          Event.SetGpio (m.segs 6)] ∧
      holds (issued m m') = [] ∧
      (∀ i : Fin 4, levels (issued m m') lv (m.digs i) = false) ∧
      (∀ s : Fin 7, levels (issued m m') lv (m.segs s) = true) ∧
      ((∀ s : Fin 7, m.segs s ≠ m.dot) → (∀ i : Fin 4, m.digs i ≠ m.dot) →
        ∀ e ∈ issued m m', e.target ≠ some m.dot) := by
  have hsd : ∀ (s : Fin 7) (i : Fin 4), m.segs s ≠ m.digs i := by
    intro s i he
    rw [List.nodup_append] at h11
    exact h11.2.2 ((List.mem_ofFn _ _).mpr ⟨s, rfl⟩) ((List.mem_ofFn _ _).mpr ⟨i, he.symm⟩)
  refine ⟨_, diagnostic_eq m, issued_emits _ _, ?_, ?_, ?_, ?_⟩
  · rw [issued_emits]
    rfl
  · intro i
    rw [issued_emits, levels_append, levels_offDigits m _ ?_]
    · fin_cases i <;> simp [levels, Event.drive, Function.update]
    · intro e he k
      simp only [List.mem_cons, List.mem_singleton, List.not_mem_nil, or_false] at he
      rcases he with rfl | rfl | rfl | rfl | rfl | rfl | rfl <;>
        exact ⟨fun h => hsd _ k (by injection h), fun h => (by cases h)⟩
  · intro s
    rw [issued_emits]
    fin_cases s <;> simp [levels, Event.drive, Function.update]
  · intro hs hd e he
    rw [issued_emits] at he
    simp only [List.mem_append, List.mem_cons, List.mem_singleton, List.not_mem_nil,
      or_false] at he
    rcases he with (rfl | rfl | rfl | rfl) | (rfl | rfl | rfl | rfl | rfl | rfl | rfl) <;>
      simp [Event.target, hs, hd]

/-- Witness of amended C15: the demo multiplexer, from levels all high. -/
theorem diagnostic_scenario_witness :
    (List.ofFn demo.segs ++ List.ofFn demo.digs).Nodup ∧
    ∃ m', demo.AllDigsOn.SetDigsSegs ((8 : Nat) : Int) = Except.ok m' ∧
      issued demo m' =
        [Event.ClrGpio (demo.digs 0), Event.ClrGpio (demo.digs 1), Event.ClrGpio (demo.digs 2),
          Event.ClrGpio (demo.digs 3)] ++
        [Event.SetGpio (demo.segs 0), Event.SetGpio (demo.segs 1), Event.SetGpio (demo.segs 2),
          Event.SetGpio (demo.segs 3), Event.SetGpio (demo.segs 4), Event.SetGpio (demo.segs 5),
          Event.SetGpio (demo.segs 6)] ∧
      holds (issued demo m') = [] ∧
      (∀ i : Fin 4, levels (issued demo m') (fun _ => true) (demo.digs i) = false) ∧
      (∀ s : Fin 7, levels (issued demo m') (fun _ => true) (demo.segs s) = true) ∧
      ((∀ s : Fin 7, demo.segs s ≠ demo.dot) → (∀ i : Fin 4, demo.digs i ≠ demo.dot) →
        ∀ e ∈ issued demo m', e.target ≠ some demo.dot) :=
  ⟨by decide, diagnostic_scenario demo (fun _ => true) (by decide)⟩

/-- C20, as stated, fails: in `clash` the dot is wired to pin 9, which is segment
pin 0; `SetDigsSegs 1` clears pin 9, an operation on the dot pin. -/
theorem SetDigsSegs_writes_dot_pin :
    ∃ m', clash.SetDigsSegs ((1 : Nat) : Int) = Except.ok m' ∧
      Event.ClrGpio clash.dot ∈ issued clash m' := by
  refine ⟨_, SetDigsSegs_eq clash 1 (by decide), ?_⟩
  rw [issued_emits, finRange_seven]
  simp [clash, demo, segWrite, segdisp]

/-- C20, amended. For every digit `d ≤ 9`, every pin assignment and every position
`j` whose loaded digit is `d`: `SetDigsSegs d` and the digit step both return, the
seven events of `SetDigsSegs d` are the segment writes and the register
operations of the step are `SetGpio` on the previous digit pin, then exactly the
events of `SetDigsSegs d`, then the dot write and `ClrGpio` on the own digit pin;
every event of `SetDigsSegs d` addresses a segment pin, so when no segment pin is
also a digit pin or the dot pin, none addresses a digit pin or the dot pin. -/
theorem SetDigsSegs_matches_step (m : FourEightSegs) (ld : Loads) (ms : Int) (p : Nat)
    (j : Fin 4) (d : Nat) (hd : d ≤ 9) (hn : ld.nums p j = d) :
    ∃ m1 m2, m.SetDigsSegs (d : Int) = Except.ok m1 ∧ digitStep ld ms p m j = Except.ok m2 ∧
      (issued m m1).length = 7 ∧
      regOps (issued m m2) = [Event.SetGpio (m.digs (prevPos j))] ++ issued m m1
        ++ [dotWrite m (ld.dots p j)] ++ [Event.ClrGpio (m.digs j)] ∧
      ((regOps (issued m m2)).drop 1).take 7 = issued m m1 ∧
      (∀ e ∈ issued m m1, ∃ s : Fin 7, e.target = some (m.segs s)) ∧
      ((∀ (s : Fin 7) (i : Fin 4), m.segs s ≠ m.digs i) → (∀ s : Fin 7, m.segs s ≠ m.dot) →
        ∀ e ∈ issued m m1, (∀ i : Fin 4, e.target ≠ some (m.digs i)) ∧ e.target ≠ some m.dot) := by
  have htar : ∀ e ∈ (List.finRange 7).map (segWrite m d),
      ∃ s : Fin 7, e.target = some (m.segs s) := by
    intro e he
    rw [List.mem_map] at he
    obtain ⟨s, _, rfl⟩ := he
    exact ⟨s, segWrite_target m d s⟩
  refine ⟨_, _, SetDigsSegs_eq m d hd, digitStep_eq ld ms p m j (by omega), ?_, ?_, ?_, ?_, ?_⟩
  · rw [issued_emits]
    simp
  · rw [issued_emits, issued_emits, regOps_stepEvents, hn]
    rfl
  · rw [issued_emits, issued_emits, regOps_stepEvents, hn]
    simp [stepOps, List.take_append_eq_append_take]
  · rw [issued_emits]
    exact htar
  · intro hsd hs e he
    rw [issued_emits] at he
    obtain ⟨s, hse⟩ := htar e he
    rw [hse]
    exact ⟨fun i h => hsd s i (by injection h), fun h => hs s (by injection h)⟩

/-- Witness of amended C20: digit 3 at position 2 of the demo content. -/
theorem SetDigsSegs_matches_step_witness :
    ∃ m1 m2, demo.SetDigsSegs ((3 : Nat) : Int) = Except.ok m1 ∧
      digitStep (Loads.quiet demo) 2 0 demo 2 = Except.ok m2 ∧
      (issued demo m1).length = 7 ∧
      regOps (issued demo m2) = [Event.SetGpio (demo.digs (prevPos 2))] ++ issued demo m1
        ++ [dotWrite demo ((Loads.quiet demo).dots 0 2)] ++ [Event.ClrGpio (demo.digs 2)] ∧
      ((regOps (issued demo m2)).drop 1).take 7 = issued demo m1 ∧
      (∀ e ∈ issued demo m1, ∃ s : Fin 7, e.target = some (demo.segs s)) ∧
      ((∀ (s : Fin 7) (i : Fin 4), demo.segs s ≠ demo.digs i) →
        (∀ s : Fin 7, demo.segs s ≠ demo.dot) →
        ∀ e ∈ issued demo m1,
          (∀ i : Fin 4, e.target ≠ some (demo.digs i)) ∧ e.target ≠ some demo.dot) :=
  SetDigsSegs_matches_step demo (Loads.quiet demo) 2 0 2 3 (by decide)
    (by simp [Loads.quiet, demo])

/-! ### Exactly one digit lit during the holds -/

theorem holdsLit_append (m : FourEightSegs) (a b : List Event) (lv : Int → Bool)
    (ha : HoldsLit m a lv) (hb : HoldsLit m b (levels a lv)) : HoldsLit m (a ++ b) lv := by
  intro n d hn
  rw [List.take_append_eq_append_take, levels_append]
  by_cases hlt : n < a.length
  · rw [List.getElem?_append_left hlt] at hn
    have h0 : n - a.length = 0 := by omega
    rw [h0, List.take_zero, levels_nil]
    exact ha n d hn
  · have hle : a.length ≤ n := by omega
    rw [List.getElem?_append_right hle] at hn
    rw [List.take_of_length_le hle]
    exact hb (n - a.length) d hn

theorem holdsLit_of_no_sleep (m : FourEightSegs) (es : List Event) (lv : Int → Bool)
    (h : ∀ e ∈ es, ∀ d, e ≠ Event.Sleep d) : HoldsLit m es lv := by
  intro n d hn
  exact absurd rfl (h _ (List.getElem?_mem hn) d)

theorem regOp_ne_sleep (e : Event) (h : Event.isRegOp e = true) (d : Int) : e ≠ Event.Sleep d := by
  intro he
  rw [he] at h
  cases h

theorem levels_sleep (ns : Int) (lv : Int → Bool) : levels [Event.Sleep ns] lv = lv := rfl

/-- After the register operations of a step the own digit pin is low. -/
theorem stepOps_own_low (m : FourEightSegs) (v d : Nat) (j : Fin 4) (lv : Int → Bool) :
    levels (stepOps m v d j) lv (m.digs j) = false := by
  unfold stepOps
  rw [levels_append]
  simp [levels, Event.drive]

/-- A digit step started with every digit pin high except perhaps the previous
one has exactly its own digit pin low when its hold starts. -/
theorem step_lit (m : FourEightSegs) (hp : m.pins.Nodup) (ms : Int) (v d : Nat) (j : Fin 4)
    (lv : Int → Bool) (hpre : HighExcept m (prevPos j) lv) :
    HoldsLit m (stepEvents m ms v d j) lv := by
  have hpost := (step_safe m hp ms v d j lv hpre).2
  unfold stepEvents at hpost ⊢
  rw [levels_append, levels_sleep] at hpost
  refine holdsLit_append m _ _ lv
    (holdsLit_of_no_sleep m _ lv (fun e he d' =>
      regOp_ne_sleep e (List.filter_eq_self.mp (regOps_stepOps m v d j) e he) d')) ?_
  intro n d' hn
  cases n with
  | zero => exact ⟨j, stepOps_own_low m v d j lv, hpost⟩
  | succ n => simp at hn

theorem pass_lit (m : FourEightSegs) (hp : m.pins.Nodup) (ld : Loads) (ms : Int) (p : Nat)
    (lv : Int → Bool) (hpre : HighExcept m 3 lv) : HoldsLit m (passEvents m ld ms p) lv := by
  obtain ⟨_, e0⟩ := step_safe m hp ms (ld.nums p 0) (ld.dots p 0) 0 lv hpre
  obtain ⟨_, e1⟩ := step_safe m hp ms (ld.nums p 1) (ld.dots p 1) 1 _ e0
  obtain ⟨_, e2⟩ := step_safe m hp ms (ld.nums p 2) (ld.dots p 2) 2 _ e1
  have l0 := step_lit m hp ms (ld.nums p 0) (ld.dots p 0) 0 lv hpre
  have l1 := step_lit m hp ms (ld.nums p 1) (ld.dots p 1) 1 _ e0
  have l2 := step_lit m hp ms (ld.nums p 2) (ld.dots p 2) 2 _ e1
  have l3 := step_lit m hp ms (ld.nums p 3) (ld.dots p 3) 3 _ e2
  unfold passEvents
  refine holdsLit_append m _ _ lv (holdsLit_append m _ _ lv (holdsLit_append m _ _ lv l0 l1) ?_) ?_
  · rw [levels_append]
    exact l2
  · rw [levels_append, levels_append]
    exact l3

theorem passes_lit (m : FourEightSegs) (hp : m.pins.Nodup) (ld : Loads) (ms : Int)
    (l : List Nat) : ∀ lv : Int → Bool, HighExcept m 3 lv →
      HoldsLit m (l.flatMap (passEvents m ld ms)) lv := by
  induction l with
  | nil =>
    intro lv _
    exact holdsLit_of_no_sleep m _ lv (fun e he => by cases he)
  | cons a t ih =>
    intro lv h
    rw [List.flatMap_cons]
    exact holdsLit_append m _ _ lv (pass_lit m hp ld ms a lv h)
      (ih _ (pass_safe m hp ld ms a lv h).2)

/-- Whenever a hold of a run that ends by itself starts, exactly one digit pin is low. -/
theorem run_holds_lit (m : FourEightSegs) (ld : Loads) (ms : Int) (k fuel : Nat)
    (hp : m.pins.Nodup) (hfuel : k < fuel) (hgo : ∀ q, q < k → ld.stop q = 0)
    (hstop : 0 < ld.stop k) (hv : ∀ q, q < k → ∀ j : Fin 4, ld.nums q j ≤ 9)
    (lv0 : Int → Bool) : HoldsLit m (issued m (m.run ld ms fuel).m) lv0 := by
  rw [run_done_eq m ld ms k fuel hfuel hgo hstop hv, issued_emits]
  have hoff : HoldsLit m (offOps m) lv0 :=
    holdsLit_of_no_sleep m _ lv0 (fun e he d =>
      regOp_ne_sleep e (List.filter_eq_self.mp (regOps_offOps m) e he) d)
  have h3 : HighExcept m 3 (levels (offOps m) lv0) :=
    highExcept_of_allHigh m 3 _ (offOps_allHigh m lv0)
  refine holdsLit_append m _ _ lv0 (holdsLit_append m _ _ lv0 hoff
    (passes_lit m hp ld ms _ _ h3)) ?_
  exact holdsLit_of_no_sleep m _ _ (fun e he d => by
    rw [List.mem_singleton] at he
    rw [he]
    exact fun h => (by cases h))

/-! ### No digit lit between break and make -/

theorem blank_append (m : FourEightSegs) (a b : List Event) (lv : Int → Bool)
    (ha : BlankUntilMake m a lv) (hb : BlankUntilMake m b (levels a lv)) :
    BlankUntilMake m (a ++ b) lv := by
  intro n e hn hr hs
  rw [List.take_append_eq_append_take, levels_append]
  by_cases hlt : n < a.length
  · rw [List.getElem?_append_left hlt] at hn
    have h0 : n - a.length = 0 := by omega
    rw [h0, List.take_zero, levels_nil]
    exact ha n e hn hr hs
  · have hle : a.length ≤ n := by omega
    rw [List.getElem?_append_right hle] at hn
    rw [List.take_of_length_le hle]
    exact hb (n - a.length) e hn hr hs

/-- Events none of which is selected put no condition on the levels. -/
theorem blank_of_none (m : FourEightSegs) (es : List Event) (lv : Int → Bool)
    (h : ∀ e ∈ es, Event.isRegOp e = true → ∃ i : Fin 4, e = Event.SetGpio (m.digs i)) :
    BlankUntilMake m es lv := by
  intro n e hn hr hs
  obtain ⟨i, hi⟩ := h e (List.getElem?_mem hn) hr
  exact absurd hi (hs i)

/-- Events off the digit pins keep every digit pin high. -/
theorem blank_offDigits (m : FourEightSegs) (es : List Event)
    (h : ∀ e ∈ es, Event.offDigits m e) (lv : Int → Bool) (hlv : AllHigh m lv) :
    BlankUntilMake m es lv := by
  intro n e _ _ _ i
  rw [levels_offDigits m _ (fun x hx => h x (List.mem_of_mem_take hx))]
  exact hlv i

/-- Disabling the previous digit leaves every digit pin high. -/
theorem setPrev_allHigh (m : FourEightSegs) (j : Fin 4) (lv : Int → Bool)
    (hpre : HighExcept m (prevPos j) lv) :
    AllHigh m ((Event.SetGpio (m.digs (prevPos j))).drive lv) := by
  intro i
  by_cases hi : m.digs i = m.digs (prevPos j)
  · simp [Event.drive, Function.update, hi]
  · have hne : i ≠ prevPos j := fun e => hi (by rw [e])
    simp [Event.drive, Function.update, hi, hpre i hne]

/-- In a digit step started with every digit pin high except perhaps the previous
one, every digit pin is high from after the first write until the own `ClrGpio`. -/
theorem step_blank (m : FourEightSegs) (hp : m.pins.Nodup) (ms : Int) (v d : Nat) (j : Fin 4)
    (lv : Int → Bool) (hpre : HighExcept m (prevPos j) lv) :
    BlankUntilMake m (stepEvents m ms v d j) lv := by
  have hmid := mid_offDigits m hp v d
  have h1 := setPrev_allHigh m j lv hpre
  have h2 : AllHigh m (levels ((List.finRange 7).map (segWrite m v) ++ [dotWrite m d])
      ((Event.SetGpio (m.digs (prevPos j))).drive lv)) := by
    intro i
    rw [levels_offDigits m _ hmid]
    exact h1 i
  rw [stepEvents_split]
  refine blank_append m _ _ lv (blank_of_none m _ lv ?_) ?_
  · intro e he _
    rw [List.mem_singleton] at he
    exact ⟨prevPos j, he⟩
  refine blank_append m _ _ _ (blank_offDigits m _ hmid _ h1) ?_
  refine blank_append m _ _ _ ?_ (blank_of_none m _ _ ?_)
  · intro n e hn _ _
    cases n with
    | zero => exact h2
    | succ n => simp at hn
  · intro e he hr
    rw [List.mem_singleton] at he
    rw [he] at hr
    cases hr

theorem pass_blank (m : FourEightSegs) (hp : m.pins.Nodup) (ld : Loads) (ms : Int) (p : Nat)
    (lv : Int → Bool) (hpre : HighExcept m 3 lv) : BlankUntilMake m (passEvents m ld ms p) lv := by
  obtain ⟨_, e0⟩ := step_safe m hp ms (ld.nums p 0) (ld.dots p 0) 0 lv hpre
  obtain ⟨_, e1⟩ := step_safe m hp ms (ld.nums p 1) (ld.dots p 1) 1 _ e0
  obtain ⟨_, e2⟩ := step_safe m hp ms (ld.nums p 2) (ld.dots p 2) 2 _ e1
  have l0 := step_blank m hp ms (ld.nums p 0) (ld.dots p 0) 0 lv hpre
  have l1 := step_blank m hp ms (ld.nums p 1) (ld.dots p 1) 1 _ e0
  have l2 := step_blank m hp ms (ld.nums p 2) (ld.dots p 2) 2 _ e1
  have l3 := step_blank m hp ms (ld.nums p 3) (ld.dots p 3) 3 _ e2
  unfold passEvents
  refine blank_append m _ _ lv (blank_append m _ _ lv (blank_append m _ _ lv l0 l1) ?_) ?_
  · rw [levels_append]
    exact l2
  · rw [levels_append, levels_append]
    exact l3

theorem passes_blank (m : FourEightSegs) (hp : m.pins.Nodup) (ld : Loads) (ms : Int)
    (l : List Nat) : ∀ lv : Int → Bool, HighExcept m 3 lv →
      BlankUntilMake m (l.flatMap (passEvents m ld ms)) lv := by
  induction l with
  | nil =>
    intro lv _
    exact blank_of_none m _ lv (fun e he => by cases he)
  | cons a t ih =>
    intro lv h
    rw [List.flatMap_cons]
    exact blank_append m _ _ lv (pass_blank m hp ld ms a lv h)
      (ih _ (pass_safe m hp ld ms a lv h).2)

/-- In a run that ends by itself, every digit pin is high at each point whose next
event is a segment write, the dot write or the enabling `ClrGpio`. -/
theorem run_blank (m : FourEightSegs) (ld : Loads) (ms : Int) (k fuel : Nat)
    (hp : m.pins.Nodup) (hfuel : k < fuel) (hgo : ∀ q, q < k → ld.stop q = 0)
    (hstop : 0 < ld.stop k) (hv : ∀ q, q < k → ∀ j : Fin 4, ld.nums q j ≤ 9)
    (lv0 : Int → Bool) : BlankUntilMake m (issued m (m.run ld ms fuel).m) lv0 := by
  rw [run_done_eq m ld ms k fuel hfuel hgo hstop hv, issued_emits]
  have hoff : BlankUntilMake m (offOps m) lv0 := by
    refine blank_of_none m _ lv0 ?_
    intro e he _
    simp only [offOps, List.mem_cons, List.mem_singleton, List.not_mem_nil, or_false] at he
    rcases he with rfl | rfl | rfl | rfl
    · exact ⟨0, rfl⟩
    · exact ⟨1, rfl⟩
    · exact ⟨2, rfl⟩
    · exact ⟨3, rfl⟩
  have h3 : HighExcept m 3 (levels (offOps m) lv0) :=
    highExcept_of_allHigh m 3 _ (offOps_allHigh m lv0)
  refine blank_append m _ _ lv0 (blank_append m _ _ lv0 hoff
    (passes_blank m hp ld ms _ _ h3)) (blank_of_none m _ _ ?_)
  intro e he hr
  rw [List.mem_singleton] at he
  rw [he] at hr
  cases hr

/-- The register operations of a step after its first are segment writes, the dot
write and the own `ClrGpio`: none is a `SetGpio` on a digit pin. -/
theorem stepOps_tail_selected (m : FourEightSegs) (hp : m.pins.Nodup) (v d : Nat) (j : Fin 4) :
    (stepOps m v d j).tail
      = (List.finRange 7).map (segWrite m v) ++ [dotWrite m d] ++ [Event.ClrGpio (m.digs j)] ∧
    ∀ e ∈ (stepOps m v d j).tail,
      Event.isRegOp e = true ∧ ∀ i : Fin 4, e ≠ Event.SetGpio (m.digs i) := by
  have htail : (stepOps m v d j).tail
      = (List.finRange 7).map (segWrite m v) ++ [dotWrite m d] ++ [Event.ClrGpio (m.digs j)] := by
    simp [stepOps]
  refine ⟨htail, ?_⟩
  intro e he
  have hreg : Event.isRegOp e = true :=
    List.filter_eq_self.mp (regOps_stepOps m v d j) e (List.mem_of_mem_tail he)
  refine ⟨hreg, ?_⟩
  rw [htail, List.mem_append] at he
  rcases he with he | he
  · exact fun i => (mid_offDigits m hp v d e he i).1
  · rw [List.mem_singleton] at he
    rw [he]
    exact fun i h => (by cases h)

/-! ### The end-to-end scenario -/

theorem stopAfter_demo_go (k q : Nat) (hq : q < k) : (Loads.stopAfter demo k).stop q = 0 := by
  simp [Loads.stopAfter, hq, demo]

theorem stopAfter_demo_stop (k : Nat) : 0 < (Loads.stopAfter demo k).stop k := by
  simp [Loads.stopAfter, FourEightSegs.Stop, demo]

theorem stopAfter_demo_nums (k p : Nat) (j : Fin 4) : (Loads.stopAfter demo k).nums p j ≤ 9 := by
  fin_cases j <;> simp [Loads.stopAfter, demo]

theorem demo_pins_nodup : demo.pins.Nodup := by decide

/-- The first four events of `run` are those of `AllDigsOff`. -/
theorem run_take_four (m : FourEightSegs) (ld : Loads) (ms : Int) (fuel : Nat)
    (hp : m.pins.Nodup) (hv : ∀ p (j : Fin 4), ld.nums p j ≤ 9) :
    (issued m (m.run ld ms fuel).m).take 4 = offOps m := by
  obtain ⟨R, hR, _⟩ := run_tail_safe m ld ms fuel hp hv (fun _ => true)
  rw [hR, List.take_append_eq_append_take]
  simp [offOps]

/-- C13, as stated, fails: in the end-to-end scenario, stopped after one pass, once
the four writes of `AllDigsOff` are done every digit pin is high, so no digit pin
is low at that instant, whatever the levels were before. -/
theorem end_to_end_none_lit :
    AllHigh demo (levels ((issued demo (demo.run (Loads.stopAfter demo 1) 2 3).m).take 4)
      (fun _ => false)) ∧
    ¬ ExactlyOneLow demo
      (levels ((issued demo (demo.run (Loads.stopAfter demo 1) 2 3).m).take 4) (fun _ => false)) := by
  have h4 := run_take_four demo (Loads.stopAfter demo 1) 2 3 demo_pins_nodup
    (stopAfter_demo_nums 1)
  rw [h4]
  have hall := offOps_allHigh demo (fun _ => false)
  refine ⟨hall, ?_⟩
  rintro ⟨j, hj, _⟩
  rw [hall j] at hj
  cases hj

/-- C13, amended. In the end-to-end scenario (segment pins 9,13,17,3,2,11,27, digit
pins 10,5,6,22, dot pin 4, digits 1,2,3,4, dots 0,1,0,0), whatever the dwell, the
levels before and the pass during which `Stop` is called, `run` ends by itself;
at every point of its events after the four writes of `AllDigsOff` at most one
digit pin is low; whenever a hold starts exactly one digit pin is low; right
after `AllDigsOff` none is. Its events are those of `AllDigsOff`, of `k` whole
passes and the completion signal; at every point whose next event is a register
operation other than `SetGpio` on a digit pin no digit pin is low, and in every
digit step these operations are all those after the first: the segment writes,
the dot write and the own `ClrGpio`. So in each step no digit pin is low from
after the `SetGpio` on the previous digit pin until the `ClrGpio` on the own. -/
theorem end_to_end_trace (k fuel : Nat) (ms : Int) (lv0 : Int → Bool) (hfuel : k < fuel) :
    (demo.run (Loads.stopAfter demo k) ms fuel).exit = Exit.done ∧
    (∀ n : Nat, 4 ≤ n → AtMostOneLow demo
      (levels ((issued demo (demo.run (Loads.stopAfter demo k) ms fuel).m).take n) lv0)) ∧
    (∀ (n : Nat) (d : Int),
      (issued demo (demo.run (Loads.stopAfter demo k) ms fuel).m)[n]? = some (Event.Sleep d) →
      ExactlyOneLow demo
        (levels ((issued demo (demo.run (Loads.stopAfter demo k) ms fuel).m).take n) lv0)) ∧
    AllHigh demo
      (levels ((issued demo (demo.run (Loads.stopAfter demo k) ms fuel).m).take 4) lv0) ∧
    issued demo (demo.run (Loads.stopAfter demo k) ms fuel).m
      = offOps demo ++ (List.range k).flatMap (passEvents demo (Loads.stopAfter demo k) ms)
          ++ [Event.Done] ∧
    (∀ (n : Nat) (e : Event),
      (issued demo (demo.run (Loads.stopAfter demo k) ms fuel).m)[n]? = some e →
      Event.isRegOp e = true → (∀ i : Fin 4, e ≠ Event.SetGpio (demo.digs i)) →
      AllHigh demo
        (levels ((issued demo (demo.run (Loads.stopAfter demo k) ms fuel).m).take n) lv0)) ∧
    (∀ (v d : Nat) (j : Fin 4),
      (stepOps demo v d j).tail = (List.finRange 7).map (segWrite demo v) ++ [dotWrite demo d]
        ++ [Event.ClrGpio (demo.digs j)] ∧
      ∀ e ∈ (stepOps demo v d j).tail,
        Event.isRegOp e = true ∧ ∀ i : Fin 4, e ≠ Event.SetGpio (demo.digs i)) := by
  have hrun := run_done_eq demo (Loads.stopAfter demo k) ms k fuel hfuel (stopAfter_demo_go k)
    (stopAfter_demo_stop k) (fun q _ j => stopAfter_demo_nums k q j)
  refine ⟨?_, ?_, ?_, ?_, ?_, ?_, ?_⟩
  · rw [hrun]
  · intro n hn
    obtain ⟨R, hR, hs⟩ := run_tail_safe demo (Loads.stopAfter demo k) ms fuel demo_pins_nodup
      (stopAfter_demo_nums k) lv0
    rw [hR, List.take_append_eq_append_take, levels_append]
    have h4 : List.take n (offOps demo) = offOps demo :=
      List.take_of_length_le (by simpa [offOps] using hn)
    rw [h4]
    exact hs (n - (offOps demo).length)
  · exact run_holds_lit demo _ ms k fuel demo_pins_nodup hfuel (stopAfter_demo_go k)
      (stopAfter_demo_stop k) (fun q _ j => stopAfter_demo_nums k q j) lv0
  · rw [run_take_four demo _ ms fuel demo_pins_nodup (stopAfter_demo_nums k)]
    exact offOps_allHigh demo lv0
  · rw [hrun, issued_emits]
  · exact run_blank demo _ ms k fuel demo_pins_nodup hfuel (stopAfter_demo_go k)
      (stopAfter_demo_stop k) (fun q _ j => stopAfter_demo_nums k q j) lv0
  · intro v d j
    exact stepOps_tail_selected demo demo_pins_nodup v d j

/-- Witness of amended C13: dwell 2, `Stop` called during the second pass. -/
theorem end_to_end_trace_witness :
    (demo.run (Loads.stopAfter demo 2) 2 5).exit = Exit.done ∧
    (∀ n : Nat, 4 ≤ n → AtMostOneLow demo
      (levels ((issued demo (demo.run (Loads.stopAfter demo 2) 2 5).m).take n)
        (fun _ => false))) ∧
    (∀ (n : Nat) (d : Int),
      (issued demo (demo.run (Loads.stopAfter demo 2) 2 5).m)[n]? = some (Event.Sleep d) →
      ExactlyOneLow demo
        (levels ((issued demo (demo.run (Loads.stopAfter demo 2) 2 5).m).take n)
          (fun _ => false))) ∧
    AllHigh demo
      (levels ((issued demo (demo.run (Loads.stopAfter demo 2) 2 5).m).take 4)
        (fun _ => false)) ∧
    issued demo (demo.run (Loads.stopAfter demo 2) 2 5).m
      = offOps demo ++ (List.range 2).flatMap (passEvents demo (Loads.stopAfter demo 2) 2)
          ++ [Event.Done] ∧
    (∀ (n : Nat) (e : Event),
      (issued demo (demo.run (Loads.stopAfter demo 2) 2 5).m)[n]? = some e →
      Event.isRegOp e = true → (∀ i : Fin 4, e ≠ Event.SetGpio (demo.digs i)) →
      AllHigh demo
        (levels ((issued demo (demo.run (Loads.stopAfter demo 2) 2 5).m).take n)
          (fun _ => false))) ∧
    (∀ (v d : Nat) (j : Fin 4),
      (stepOps demo v d j).tail = (List.finRange 7).map (segWrite demo v) ++ [dotWrite demo d]
        ++ [Event.ClrGpio (demo.digs j)] ∧
      ∀ e ∈ (stepOps demo v d j).tail,
        Event.isRegOp e = true ∧ ∀ i : Fin 4, e ≠ Event.SetGpio (demo.digs i)) :=
  end_to_end_trace 2 5 2 (fun _ => false) (by decide)

/-! ### Pin levels left by the last digit step -/

/-- In a nodup assignment the segment pins differ from one another and from the dot pin. -/
theorem pins_distinct_segs (m : FourEightSegs) (h : m.pins.Nodup) :
    (∀ a b : Fin 7, m.segs a = m.segs b ↔ a = b) ∧ (∀ s : Fin 7, m.segs s ≠ m.dot) := by
  unfold FourEightSegs.pins at h
  rw [List.nodup_append, List.nodup_append] at h
  obtain ⟨⟨hs, _, _⟩, _, hx⟩ := h
  refine ⟨?_, ?_⟩
  · intro a b
    exact ⟨fun e => (List.nodup_ofFn.mp hs) e, fun e => by rw [e]⟩
  · intro s he
    exact hx (List.mem_append_left _ ((List.mem_ofFn _ _).mpr ⟨s, he⟩))
      (List.mem_singleton.mpr rfl)

theorem drive_segWrite (m : FourEightSegs) (v : Nat) (s : Fin 7) (l : Int → Bool) :
    (segWrite m v s).drive l
      = Function.update l (m.segs s) (decide ((segdisp.getD v []).getD s.val 0 = 1)) := by
  by_cases h : (segdisp.getD v []).getD s.val 0 = 1
  · rw [segWrite, if_pos h, decide_eq_true h]
    rfl
  · rw [segWrite, if_neg h, decide_eq_false h]
    rfl

theorem drive_dotWrite (m : FourEightSegs) (d : Nat) (l : Int → Bool) :
    (dotWrite m d).drive l = Function.update l m.dot (decide (0 < d)) := by
  by_cases h : 0 < d
  · rw [dotWrite, if_pos h, decide_eq_true h]
    rfl
  · rw [dotWrite, if_neg h, decide_eq_false h]
    rfl

/-- Levels after a whole digit step, as nested writes. -/
theorem levels_stepEvents (m : FourEightSegs) (ms : Int) (v d : Nat) (j : Fin 4)
    (lv : Int → Bool) :
    levels (stepEvents m ms v d j) lv =
      Function.update (Function.update (Function.update (Function.update (Function.update
        (Function.update (Function.update (Function.update (Function.update
          (Function.update lv (m.digs (prevPos j)) true)
          (m.segs 0) (decide ((segdisp.getD v []).getD 0 0 = 1)))
          (m.segs 1) (decide ((segdisp.getD v []).getD 1 0 = 1)))
          (m.segs 2) (decide ((segdisp.getD v []).getD 2 0 = 1)))
          (m.segs 3) (decide ((segdisp.getD v []).getD 3 0 = 1)))
          (m.segs 4) (decide ((segdisp.getD v []).getD 4 0 = 1)))
          (m.segs 5) (decide ((segdisp.getD v []).getD 5 0 = 1)))
          (m.segs 6) (decide ((segdisp.getD v []).getD 6 0 = 1)))
          m.dot (decide (0 < d)))
          (m.digs j) false := by
  simp only [stepEvents, stepOps, finRange_seven, List.map_cons, List.map_nil, List.cons_append,
    List.nil_append, levels, List.foldl_cons, List.foldl_nil, List.foldl_append,
    drive_segWrite, drive_dotWrite]
  rfl

/-- The levels a digit step leaves: its own digit pin low, each segment pin high
exactly when its flag is 1, the dot pin high exactly when the dot flag is positive. -/
theorem step_final (m : FourEightSegs) (hp : m.pins.Nodup) (ms : Int) (v d : Nat) (j : Fin 4)
    (lv : Int → Bool) :
    levels (stepEvents m ms v d j) lv (m.digs j) = false ∧
    (∀ s : Fin 7, levels (stepEvents m ms v d j) lv (m.segs s)
      = decide ((segdisp.getD v []).getD s.val 0 = 1)) ∧
    levels (stepEvents m ms v d j) lv m.dot = decide (0 < d) := by
  obtain ⟨_, hsd, hdd⟩ := pins_distinct m hp
  obtain ⟨hss, hsdot⟩ := pins_distinct_segs m hp
  rw [levels_stepEvents]
  refine ⟨by simp, ?_, ?_⟩
  · intro s
    fin_cases s <;> simp [Function.update_apply, hsd, hsdot, hss]
  · simp [Function.update_apply, hdd]

theorem levels_done (lv : Int → Bool) : levels [Event.Done] lv = lv := rfl

/-- The events of a run of `k + 1` passes, split before the last digit step. -/
theorem run_events_split (m : FourEightSegs) (ld : Loads) (ms : Int) (k : Nat) :
    offOps m ++ (List.range (k + 1)).flatMap (passEvents m ld ms) ++ [Event.Done] =
      (offOps m ++ (List.range k).flatMap (passEvents m ld ms)
        ++ stepEvents m ms (ld.nums k 0) (ld.dots k 0) 0
        ++ stepEvents m ms (ld.nums k 1) (ld.dots k 1) 1
        ++ stepEvents m ms (ld.nums k 2) (ld.dots k 2) 2)
      ++ (stepEvents m ms (ld.nums k 3) (ld.dots k 3) 3 ++ [Event.Done]) := by
  simp [List.range_succ, List.flatMap_append, passEvents, List.append_assoc]

/-- C17. State left on exit: for 12 pairwise distinct pins and loaded digits at
most 9, when `run` ends by itself after `k ≥ 1` passes and the last pass loaded
the content `nums`, `dots`, then from any levels before, the pin of digit
position 3 is low and those of positions 0, 1, 2 are high, segment pin `s` is high
exactly when `segdisp[nums[3]][s] = 1`, the dot pin is high exactly when
`dots[3] > 0`; the events end with `ClrGpio(digs[3])`, its hold and the
completion signal, so no blanking write follows the stop check. -/
theorem run_exit_state (m : FourEightSegs) (ld : Loads) (ms : Int) (k fuel : Nat)
    (nums dots : Fin 4 → Nat) (lv0 : Int → Bool)
    (hp : m.pins.Nodup) (hk : 1 ≤ k) (hfuel : k < fuel)
    (hgo : ∀ q, q < k → ld.stop q = 0) (hstop : 0 < ld.stop k)
    (hv : ∀ q, q < k → ∀ j : Fin 4, ld.nums q j ≤ 9)
    (hnums : ∀ j : Fin 4, ld.nums (k - 1) j = nums j)
    (hdots : ∀ j : Fin 4, ld.dots (k - 1) j = dots j) :
    (m.run ld ms fuel).exit = Exit.done ∧
    levels (issued m (m.run ld ms fuel).m) lv0 (m.digs 3) = false ∧
    levels (issued m (m.run ld ms fuel).m) lv0 (m.digs 0) = true ∧
    levels (issued m (m.run ld ms fuel).m) lv0 (m.digs 1) = true ∧
    levels (issued m (m.run ld ms fuel).m) lv0 (m.digs 2) = true ∧
    (∀ s : Fin 7, levels (issued m (m.run ld ms fuel).m) lv0 (m.segs s) = true ↔
      (segdisp.getD (nums 3) []).getD s.val 0 = 1) ∧
    (levels (issued m (m.run ld ms fuel).m) lv0 m.dot = true ↔ 0 < dots 3) ∧
    (∃ pre, issued m (m.run ld ms fuel).m
      = pre ++ [Event.ClrGpio (m.digs 3), Event.Sleep (ms * 1000), Event.Done]) := by
  obtain ⟨k', rfl⟩ : ∃ k', k = k' + 1 := ⟨k - 1, by omega⟩
  simp only [Nat.add_sub_cancel] at hnums hdots
  have hrun := run_done_eq m ld ms (k' + 1) fuel hfuel hgo hstop hv
  have hiss : issued m (m.run ld ms fuel).m
      = offOps m ++ (List.range (k' + 1)).flatMap (passEvents m ld ms) ++ [Event.Done] := by
    rw [hrun, issued_emits]
  have h3 : HighExcept m 3 (levels (offOps m) lv0) :=
    highExcept_of_allHigh m 3 _ (offOps_allHigh m lv0)
  have hhigh := (passes_safe m hp ld ms (List.range (k' + 1)) _ h3).2
  have hfin1 : levels (issued m (m.run ld ms fuel).m) lv0
      = levels ((List.range (k' + 1)).flatMap (passEvents m ld ms)) (levels (offOps m) lv0) := by
    rw [hiss, levels_append, levels_append, levels_done]
  have hfinal := step_final m hp ms (ld.nums k' 3) (ld.dots k' 3) 3
    (levels (offOps m ++ (List.range k').flatMap (passEvents m ld ms)
        ++ stepEvents m ms (ld.nums k' 0) (ld.dots k' 0) 0
        ++ stepEvents m ms (ld.nums k' 1) (ld.dots k' 1) 1
        ++ stepEvents m ms (ld.nums k' 2) (ld.dots k' 2) 2) lv0)
  have hfin2 : levels (issued m (m.run ld ms fuel).m) lv0
      = levels (stepEvents m ms (ld.nums k' 3) (ld.dots k' 3) 3)
          (levels (offOps m ++ (List.range k').flatMap (passEvents m ld ms)
            ++ stepEvents m ms (ld.nums k' 0) (ld.dots k' 0) 0
            ++ stepEvents m ms (ld.nums k' 1) (ld.dots k' 1) 1
            ++ stepEvents m ms (ld.nums k' 2) (ld.dots k' 2) 2) lv0) := by
    rw [hiss, run_events_split, levels_append, levels_append, levels_done]
  rw [hnums 3, hdots 3] at hfinal hfin2
  refine ⟨by rw [hrun], ?_, ?_, ?_, ?_, ?_, ?_, ?_⟩
  · rw [hfin2]
    exact hfinal.1
  · rw [hfin1]
    exact hhigh 0 (by decide)
  · rw [hfin1]
    exact hhigh 1 (by decide)
  · rw [hfin1]
    exact hhigh 2 (by decide)
  · intro s
    rw [hfin2, hfinal.2.1 s]
    simp
  · rw [hfin2, hfinal.2.2]
    simp
  · refine ⟨offOps m ++ (List.range k').flatMap (passEvents m ld ms)
        ++ stepEvents m ms (ld.nums k' 0) (ld.dots k' 0) 0
        ++ stepEvents m ms (ld.nums k' 1) (ld.dots k' 1) 1
        ++ stepEvents m ms (ld.nums k' 2) (ld.dots k' 2) 2
        ++ ([Event.SetGpio (m.digs (prevPos 3))]
          ++ (List.finRange 7).map (segWrite m (ld.nums k' 3)) ++ [dotWrite m (ld.dots k' 3)]), ?_⟩
    rw [hiss, run_events_split]
    simp [stepEvents, stepOps, List.append_assoc]

/-- Witness of C17: the demo content, `Stop` called during the second pass. -/
theorem run_exit_state_witness :
    (demo.run (Loads.stopAfter demo 2) 2 5).exit = Exit.done ∧
    levels (issued demo (demo.run (Loads.stopAfter demo 2) 2 5).m) (fun _ => false)
      (demo.digs 3) = false ∧
    levels (issued demo (demo.run (Loads.stopAfter demo 2) 2 5).m) (fun _ => false)
      (demo.digs 0) = true ∧
    levels (issued demo (demo.run (Loads.stopAfter demo 2) 2 5).m) (fun _ => false)
      (demo.digs 1) = true ∧
    levels (issued demo (demo.run (Loads.stopAfter demo 2) 2 5).m) (fun _ => false)
      (demo.digs 2) = true ∧
    (∀ s : Fin 7,
      levels (issued demo (demo.run (Loads.stopAfter demo 2) 2 5).m) (fun _ => false)
        (demo.segs s) = true ↔
      (segdisp.getD (demo.nums 3) []).getD s.val 0 = 1) ∧
    (levels (issued demo (demo.run (Loads.stopAfter demo 2) 2 5).m) (fun _ => false)
      demo.dot = true ↔ 0 < demo.dots 3) ∧
    (∃ pre, issued demo (demo.run (Loads.stopAfter demo 2) 2 5).m
      = pre ++ [Event.ClrGpio (demo.digs 3), Event.Sleep (2 * 1000), Event.Done]) :=
  run_exit_state demo (Loads.stopAfter demo 2) 2 2 5 demo.nums demo.dots (fun _ => false)
    demo_pins_nodup (by decide) (by decide) (stopAfter_demo_go 2) (stopAfter_demo_stop 2)
    (fun q _ j => stopAfter_demo_nums 2 q j) (fun _ => rfl) (fun _ => rfl)

end mmgpio
